import Mathlib

/-!
Verification of the swarm pipeline engine of `oh-my-pi`
(`packages/omp-extension-swarm`): dependency-graph construction
(`buildDependencyGraph`), cycle detection (`detectCycles`), wave scheduling
(`buildExecutionWaves`), the filesystem state tracker (`StateTracker`) and the
agent-executor wrapper (`executeSwarmAgent`).

The TypeScript code is embedded shallowly:
* `Map<string, Set<string>>` becomes an association list
  `List (String × List String)` in insertion order; `Set.add` appends a
  missing element at the end, matching JS `Set` insertion-order iteration.
* the `while` loops of Kahn's algorithm and of the wave scheduler become
  fuel-indexed respectively well-founded recursion; the fuel bound is shown
  sufficient for every graph whose keys are distinct (which holds for every
  actual input, the source builds the graph from the keys of a `Map`).
* `Date.now()` time stamps, the external subagent call and the on-disk
  pipeline.json file become explicit parameters: the file content is the
  `store` field of the tracker model, `JSON.parse ∘ JSON.stringify` on the
  snapshot record is the identity.
-/

namespace OMPSwarm

/-- Dependency graph: agent name mapped to the list of agent names it depends
on (`Map<string, Set<string>>` in the source, in insertion order). -/
abbrev Graph := List (String × List String)

/-- Keys of the graph, in insertion order (`deps.keys()`). -/
def keysOf (g : Graph) : List String := g.map (·.1)

/-- Dependency set of `n` (`deps.get(n)`), `[]` when `n` is not a key. -/
def depsOf (g : Graph) (n : String) : List String :=
  ((g.find? (fun p => p.1 == n)).map (·.2)).getD []

/-- Key membership test (`deps.has(n)`). -/
def hasKey (g : Graph) (n : String) : Bool :=
  (g.find? (fun p => p.1 == n)).isSome

/-- Add `dep` to the dependency set of `k` (`deps.get(k)!.add(dep)`): a JS
`Set` ignores an element that is already present and appends a new one. -/
def addDep (g : Graph) (k dep : String) : Graph :=
  g.map (fun p =>
    if p.1 == k then (p.1, if p.2.contains dep then p.2 else p.2 ++ [dep]) else p)

/-- One agent of a swarm definition (`SwarmAgent` of `swarm/schema.ts`): the
fields the pipeline core reads. `role`, `task` and `extraContext` are only
used by the executor wrapper. -/
structure SwarmAgent where
  name : String
  waitsFor : List String := []
  reportsTo : List String := []
  role : String := ""
  task : String := ""
  extraContext : Option String := none
deriving DecidableEq

/-- A swarm definition (`SwarmDefinition`): the agents in declaration order
(the source keeps them in a `Map` plus the parallel `agentOrder` array, which
lists the `Map` keys in declaration order) and the run mode. -/
structure SwarmDefinition where
  agents : List SwarmAgent
  mode : String
deriving DecidableEq

/-- Declaration order of the agent names (`def.agentOrder`, equal to
`[...def.agents.keys()]`). -/
def agentOrder (d : SwarmDefinition) : List String := d.agents.map (·.name)

/-- Step 1 of `buildDependencyGraph`: every agent starts with an empty
dependency set. -/
def initGraph (agents : List SwarmAgent) : Graph :=
  agents.map (fun a => (a.name, []))

/-- Step 2 of `buildDependencyGraph`: explicit `waits_for` edges, each guarded
by `deps.has(dep)`. -/
def addWaits (g : Graph) (agents : List SwarmAgent) : Graph :=
  agents.foldl (fun g a =>
    a.waitsFor.foldl (fun g dep => if hasKey g dep then addDep g a.name dep else g) g) g

/-- Step 3 of `buildDependencyGraph`: `reports_to` becomes the inverse edge
(the reported-to agent depends on the reporter), guarded by
`deps.has(target)`. -/
def addReports (g : Graph) (agents : List SwarmAgent) : Graph :=
  agents.foldl (fun g a =>
    a.reportsTo.foldl (fun g tgt => if hasKey g tgt then addDep g tgt a.name else g) g) g

/-- Source `hasExplicitDeps`: some dependency set is non-empty. -/
def hasExplicitDeps (g : Graph) : Bool :=
  g.any (fun p => p.2.length > 0)

/-- Chain loop of `buildDependencyGraph`: for `i = 1 .. order.length - 1` add
`order[i] depends on order[i-1]`, left to right. -/
def addChain (g : Graph) : List String → Graph
  | a :: b :: rest => addChain (addDep g b a) (b :: rest)
  | _ => g

/-- Graph after steps 1–3 (explicit and inverse edges, before the chain
fallback). -/
def baseGraph (d : SwarmDefinition) : Graph :=
  addReports (addWaits (initGraph d.agents) d.agents) d.agents

/-- Source `buildDependencyGraph`: steps 1–3, then the linear chain in
declaration order, but only for `pipeline`/`sequential` mode with an
edge-free graph. -/
def buildDependencyGraph (d : SwarmDefinition) : Graph :=
  let deps := baseGraph d
  if (d.mode == "pipeline" || d.mode == "sequential") && !hasExplicitDeps deps then
    addChain deps (agentOrder d)
  else deps

/-- Dependents lists of Kahn's algorithm: `forward.get(d)` is the list of
nodes whose dependency set contains `d`, in graph order (the source pushes
`node` onto `forward[dep]` while iterating the graph). -/
def forwardOf (g : Graph) (d : String) : List String :=
  (g.filter (fun p => p.2.contains d)).map (·.1)

/-- In-degree table lookup (`inDegree.get(n)`). -/
def degOf (deg : List (String × Int)) (n : String) : Int :=
  (((deg.find? (fun p => p.1 == n)).map (·.2)).getD 0)

/-- In-degree decrement (`inDegree.set(n, inDegree.get(n)! - 1)`). -/
def decDeg (deg : List (String × Int)) (n : String) : List (String × Int) :=
  deg.map (fun p => if p.1 == n then (p.1, p.2 - 1) else p)

/-- Body of the dependent-relaxation loop: decrement the dependent's
in-degree and enqueue it when the new degree is zero. -/
def relaxStep (dq : List (String × Int) × List String) (m : String) :
    List (String × Int) × List String :=
  let deg := decDeg dq.1 m
  if degOf deg m == 0 then (deg, dq.2 ++ [m]) else (deg, dq.2)

/-- The `while (queue.length > 0)` loop of `detectCycles`, with explicit fuel.
Every iteration moves the queue head into `sorted`, so `g.length` iterations
suffice for any graph with distinct keys (lemma `kahnLoop_post`); the
fuel-exhaustion branch is unreachable for such graphs. -/
def kahnLoop (g : Graph) : Nat → List (String × Int) → List String → List String → List String
  | 0, _, _, sorted => sorted
  | _ + 1, _, [], sorted => sorted
  | fuel + 1, deg, node :: queue, sorted =>
    let dq := (forwardOf g node).foldl relaxStep (deg, queue)
    kahnLoop g fuel dq.1 dq.2 (sorted ++ [node])

/-- Removal order of Kahn's algorithm: in-degrees from the dependency-set
sizes, initial queue of zero-in-degree nodes, then the relaxation loop. -/
def kahnSorted (g : Graph) : List String :=
  kahnLoop g g.length
    (g.map (fun p => (p.1, (p.2.length : Int))))
    ((g.filter (fun p => p.2.isEmpty)).map (·.1))
    []

/-- Source `detectCycles`: `null` when the removal order covers every node,
otherwise the keys not in the removal order. -/
def detectCycles (g : Graph) : Option (List String) :=
  let sorted := kahnSorted g
  if sorted.length < g.length then
    some ((g.map (·.1)).filter (fun k => !sorted.contains k))
  else none

/-- Readiness check of the wave scheduler: all dependencies of `n` already
completed. -/
def readyFor (g : Graph) (completed : List String) (n : String) : Bool :=
  (depsOf g n).all (fun d => completed.contains d)

/-- The `while (remaining.size > 0)` loop of `buildExecutionWaves`.  `none`
models the `Deadlock` throw of the source (a pass over the remaining nodes
scheduled nothing).  Deleting the wave's members from the `remaining` set
keeps the other members in order, hence the `filter`. -/
def buildWavesAux (g : Graph) (completed remaining : List String) :
    Option (List (List String)) :=
  if remaining = [] then some []
  else
    let wave := remaining.filter (readyFor g completed)
    if hw : wave = [] then none
    else
      let sortedWave := wave.mergeSort (fun a b => decide (a ≤ b))
      (buildWavesAux g (completed ++ sortedWave)
        (remaining.filter (fun n => !readyFor g completed n))).map
        (fun ws => sortedWave :: ws)
termination_by remaining.length
decreasing_by
  exact List.length_filter_lt_length_iff_exists.mpr
    (by
      have hx : ∃ x ∈ remaining, readyFor g completed x = true := by
        rcases List.exists_mem_of_ne_nil wave hw with ⟨x, hx⟩
        exact ⟨x, List.mem_filter.mp hx |>.1, List.mem_filter.mp hx |>.2⟩
      rcases hx with ⟨x, hx, hr⟩
      exact ⟨x, hx, by simp [hr]⟩)

/-- Source `buildExecutionWaves`, starting from all keys remaining.  `none`
is the `Deadlock` throw. -/
def buildExecutionWaves (g : Graph) : Option (List (List String)) :=
  buildWavesAux g [] (g.map (·.1))

/-- Well-formedness invariant of the `DependencyGraph` data type: each key
present exactly once, dependency sets duplicate-free and mentioning only
agent names of the graph.  Every graph the builder produces satisfies it. -/
def WFGraph (g : Graph) : Prop :=
  (g.map (·.1)).Nodup ∧ (∀ p ∈ g, p.2.Nodup) ∧
    (∀ p ∈ g, ∀ d ∈ p.2, d ∈ g.map (·.1))

instance : DecidablePred WFGraph := fun g => by
  unfold WFGraph; infer_instance

/-- Dependency edge: `x` depends on `y`. -/
def Edge (g : Graph) (x y : String) : Prop := y ∈ depsOf g x

/-- Acyclicity: no node reaches itself through a non-empty chain of
dependency edges. -/
def Acyclic (g : Graph) : Prop := ∀ x, ¬ Relation.TransGen (Edge g) x x

/-- Agent status of `swarm/state.ts`. -/
inductive AgentStatus where
  | pending
  | waiting
  | running
  | completed
  | failed
deriving DecidableEq

/-- Pipeline status of `swarm/state.ts`. -/
inductive PipelineStatus where
  | idle
  | running
  | completed
  | failed
  | aborted
deriving DecidableEq

/-- Source `AgentState`; optional fields are absent-by-default JSON keys. -/
structure AgentState where
  name : String
  status : AgentStatus
  iteration : Nat
  wave : Nat
  startedAt : Option Nat := none
  completedAt : Option Nat := none
  error : Option String := none
deriving DecidableEq

/-- Source `SwarmState`; `agents` is a `Record<string, AgentState>`, modelled
as an association list in insertion order. -/
structure SwarmState where
  name : String
  status : PipelineStatus
  mode : String
  iteration : Nat
  targetCount : Nat
  agents : List (String × AgentState)
  startedAt : Nat
  completedAt : Option Nat := none
deriving DecidableEq

/-- Record assignment `m[k] = v`: overwrite in place when the key exists,
otherwise append. -/
def setRecord (m : List (String × AgentState)) (k : String) (v : AgentState) :
    List (String × AgentState) :=
  if m.any (fun p => p.1 == k) then
    m.map (fun p => if p.1 == k then (k, v) else p)
  else m ++ [(k, v)]

/-- Record lookup `m[k]`. -/
def getRecord (m : List (String × AgentState)) (k : String) : Option AgentState :=
  (m.find? (fun p => p.1 == k)).map (·.2)

/-- A `Partial<AgentState>` as handed to `Object.assign`: `none` fields are
absent keys, a present `error` key may itself carry `undefined`
(`Option (Option String)`). -/
structure AgentUpdate where
  status : Option AgentStatus := none
  iteration : Option Nat := none
  wave : Option Nat := none
  startedAt : Option Nat := none
  completedAt : Option Nat := none
  error : Option (Option String) := none

/-- `Object.assign(agent, update)`: present keys overwrite, absent keys keep
the old value. -/
def applyUpdate (a : AgentState) (u : AgentUpdate) : AgentState :=
  { a with
    status := u.status.getD a.status
    iteration := u.iteration.getD a.iteration
    wave := u.wave.getD a.wave
    startedAt := (u.startedAt.map some).getD a.startedAt
    completedAt := (u.completedAt.map some).getD a.completedAt
    error := u.error.getD a.error }

/-- Model of one `StateTracker` together with its observable effects: the
in-memory `#state`, the current content of `state/pipeline.json` (`store`,
`none` before the first persist; `JSON.parse ∘ JSON.stringify` on a snapshot
is the identity, so the file holds a `SwarmState`) and the append-only log
lines as `(log name, message)` pairs. -/
structure TrackerModel where
  state : SwarmState
  store : Option SwarmState := none
  logs : List (String × String) := []
deriving DecidableEq

namespace StateTracker

/-- Constructor `new StateTracker(workspaceDir, name)`; `now` is
`Date.now()`. -/
def new (name : String) (now : Nat) : TrackerModel :=
  { state :=
    { name := name
      status := .idle
      mode := "sequential"
      iteration := 0
      targetCount := 1
      agents := []
      startedAt := now } }

/-- The seeded per-agent record of `init`. -/
def pendingAgent (n : String) : AgentState :=
  { name := n, status := .pending, iteration := 0, wave := 0 }

/-- Source `StateTracker.init`: set target count, mode, `running` status and
start time, seed every agent as `pending`, persist. -/
def init (t : TrackerModel) (agentNames : List String) (targetCount : Nat)
    (mode : String) (now : Nat) : TrackerModel :=
  let st :=
    { t.state with
      targetCount := targetCount
      mode := mode
      status := PipelineStatus.running
      startedAt := now
      agents := agentNames.foldl (fun m n => setRecord m n (pendingAgent n)) t.state.agents }
  { t with state := st, store := some st }

/-- Source `StateTracker.updateAgent`: silently return when the name is
unknown (nothing is persisted then), otherwise merge and persist. -/
def updateAgent (t : TrackerModel) (name : String) (u : AgentUpdate) : TrackerModel :=
  match getRecord t.state.agents name with
  | none => t
  | some a =>
    let st := { t.state with agents := setRecord t.state.agents name (applyUpdate a u) }
    { t with state := st, store := some st }

/-- Source `StateTracker.appendLog`: append a line to `logs/<name>.log` (the
ISO timestamp prefix is irrelevant to the claims and omitted). -/
def appendLog (t : TrackerModel) (agentName message : String) : TrackerModel :=
  { t with logs := t.logs ++ [(agentName, message)] }

/-- Source `StateTracker.load`: parse `state/pipeline.json`, `null` when the
file is absent or unreadable.  A fresh tracker on the same workspace and name
reads the same file, so the result is the persisted snapshot. -/
def load (t : TrackerModel) : Option SwarmState := t.store

end StateTracker

/-- Result record of the external `runSubprocess` call (`SingleResult`): the
fields the executor wrapper inspects. -/
structure SingleResult where
  exitCode : Int
  error : Option String := none
deriving DecidableEq

/-- Rendering of an `AgentStatus` literal in the completion log line. -/
def statusText : AgentStatus → String
  | .pending => "pending"
  | .waiting => "waiting"
  | .running => "running"
  | .completed => "completed"
  | .failed => "failed"

/-- Source `executeSwarmAgent`.  The external `runSubprocess` call is the
`outcome` parameter: `Except.ok` a returned `SingleResult`, `Except.error`
the message of a thrown exception; `now1`/`now2` are the two `Date.now()`
calls.  Returns the propagated result (`Except.error` models the re-raise)
and the tracker after the state updates and log appends.  The log suffix
reproduces the JS truthiness test `result.error ? ... : ""` (an empty string
is falsy). -/
def executeSwarmAgent (agent : SwarmAgent) (iteration : Nat) (t : TrackerModel)
    (outcome : Except String SingleResult) (now1 now2 : Nat) :
    Except String SingleResult × TrackerModel :=
  let t1 := StateTracker.updateAgent t agent.name
    { status := some .running, iteration := some iteration, startedAt := some now1 }
  let t2 := StateTracker.appendLog t1 agent.name
    ("Starting iteration " ++ toString iteration)
  match outcome with
  | .ok result =>
    let status := if result.exitCode = 0 then AgentStatus.completed else AgentStatus.failed
    let t3 := StateTracker.updateAgent t2 agent.name
      { status := some status, completedAt := some now2, error := some result.error }
    let suffix := match result.error with
      | some e => if e = "" then "" else ": " ++ e
      | none => ""
    let t4 := StateTracker.appendLog t3 agent.name
      ("Iteration " ++ toString iteration ++ " " ++ statusText status ++ suffix)
    (.ok result, t4)
  | .error e =>
    let t3 := StateTracker.updateAgent t2 agent.name
      { status := some .failed, completedAt := some now2, error := some (some e) }
    let t4 := StateTracker.appendLog t3 agent.name
      ("Iteration " ++ toString iteration ++ " error: " ++ e)
    (.error e, t4)

/-! ### Association-list lemmas -/

/-- `find?` by key commutes with a key-preserving map. -/
theorem find?_key_map {β γ : Type} (l : List (String × β)) (f : String × β → String × γ)
    (hf : ∀ p, (f p).1 = p.1) (n : String) :
    (l.map f).find? (fun p => p.1 == n) = (l.find? (fun p => p.1 == n)).map f := by
  induction l with
  | nil => rfl
  | cons p rest ih =>
    by_cases h : p.1 = n
    · simp [List.find?, hf, h]
    · simp only [List.map_cons, List.find?]
      rw [show ((f p).1 == n) = false by simp [hf, h],
        show (p.1 == n) = false by simp [h]]
      exact ih

theorem keysOf_addDep (g : Graph) (k v : String) : keysOf (addDep g k v) = keysOf g := by
  simp only [keysOf, addDep, List.map_map]
  apply List.map_congr_left
  intro p _
  by_cases h : p.1 = k <;> simp [h]

theorem depsOf_eq_of_mem {g : Graph} (hnd : (keysOf g).Nodup) {p : String × List String}
    (hp : p ∈ g) : depsOf g p.1 = p.2 := by
  induction g with
  | nil => cases hp
  | cons q rest ih =>
    rcases List.mem_cons.mp hp with rfl | hp'
    · simp [depsOf, List.find?]
    · have hq : q.1 ≠ p.1 := by
        intro he
        have : p.1 ∈ keysOf rest := List.mem_map.mpr ⟨p, hp', rfl⟩
        rw [← he] at this
        exact (List.nodup_cons.mp hnd).1 this
      simp only [depsOf, List.find?]
      rw [show (q.1 == p.1) = false by simp [hq]]
      exact ih (List.nodup_cons.mp hnd).2 hp'

theorem entry_of_mem_keys {g : Graph} (hnd : (keysOf g).Nodup) {n : String}
    (hn : n ∈ keysOf g) : (n, depsOf g n) ∈ g := by
  rcases List.mem_map.mp hn with ⟨p, hp, rfl⟩
  have := depsOf_eq_of_mem hnd hp
  rw [this]
  exact hp

theorem mem_keys_of_depsOf_ne_nil {g : Graph} {n : String} (h : depsOf g n ≠ []) :
    n ∈ keysOf g := by
  rcases hf : g.find? (fun p => p.1 == n) with _ | p
  · simp [depsOf, hf] at h
  · have hmem := List.mem_of_find?_eq_some hf
    have hkey : (p.1 == n) = true := by
      have h2 := List.find?_some hf
      simpa using h2
    exact List.mem_map.mpr ⟨p, hmem, by simpa using hkey⟩

theorem addDep_of_not_mem {g : Graph} {k : String} (hk : k ∉ keysOf g) (v : String) :
    addDep g k v = g := by
  have hcg : ∀ p ∈ g,
      (if p.1 == k then (p.1, if p.2.contains v then p.2 else p.2 ++ [v]) else p) = id p := by
    intro p hp
    have hne : p.1 ≠ k := fun he => hk (List.mem_map.mpr ⟨p, hp, he⟩)
    simp [hne]
  calc addDep g k v = g.map id := List.map_congr_left hcg
  _ = g := List.map_id g

theorem depsOf_addDep_other {g : Graph} {n k : String} (h : n ≠ k) (v : String) :
    depsOf (addDep g k v) n = depsOf g n := by
  unfold depsOf addDep
  rw [find?_key_map _ _ (fun p => by by_cases hp : p.1 = k <;> simp [hp])]
  rcases hf : g.find? (fun p => p.1 == n) with _ | p
  · simp [hf]
  · have hkey : p.1 = n := by
      have h2 := List.find?_some hf
      simpa using h2
    have hne : p.1 ≠ k := by simp [hkey, h]
    simp [hf, hne]

theorem depsOf_addDep_self {g : Graph} {k : String} (hk : k ∈ keysOf g) (v : String) :
    depsOf (addDep g k v) k =
      if (depsOf g k).contains v then depsOf g k else depsOf g k ++ [v] := by
  unfold depsOf addDep
  rw [find?_key_map _ _ (fun p => by by_cases hp : p.1 = k <;> simp [hp])]
  rcases hf : g.find? (fun p => p.1 == k) with _ | p
  · exfalso
    rcases List.mem_map.mp hk with ⟨q, hq, rfl⟩
    have := List.find?_eq_none.mp hf q hq
    simp at this
  · have hkey : p.1 = k := by
      have h2 := List.find?_some hf
      simpa using h2
    simp [hf, hkey]

theorem mem_depsOf_addDep {g : Graph} {n dp : String} (h : dp ∈ depsOf g n) (k v : String) :
    dp ∈ depsOf (addDep g k v) n := by
  by_cases hnk : n = k
  · subst hnk
    by_cases hk : n ∈ keysOf g
    · rw [depsOf_addDep_self hk v]
      split
      · exact h
      · exact List.mem_append_left _ h
    · rw [addDep_of_not_mem hk]
      exact h
  · rw [depsOf_addDep_other hnk]
    exact h

theorem mem_addDep_self {g : Graph} {k : String} (hk : k ∈ keysOf g) (v : String) :
    v ∈ depsOf (addDep g k v) k := by
  rw [depsOf_addDep_self hk v]
  by_cases hc : (depsOf g k).contains v
  · rw [if_pos hc]
    simpa using hc
  · rw [if_neg (by simpa using hc)]
    simp

theorem mem_of_mem_addDep {g : Graph} {n dp k v : String}
    (h : dp ∈ depsOf (addDep g k v) n) : dp ∈ depsOf g n ∨ (dp = v ∧ n = k) := by
  by_cases hnk : n = k
  · subst hnk
    by_cases hk : n ∈ keysOf g
    · rw [depsOf_addDep_self hk v] at h
      revert h
      split
      · exact fun h => Or.inl h
      · intro h
        rcases List.mem_append.mp h with h' | h'
        · exact Or.inl h'
        · exact Or.inr ⟨by simpa using h', rfl⟩
    · rw [addDep_of_not_mem hk] at h
      exact Or.inl h
  · rw [depsOf_addDep_other hnk] at h
    exact Or.inl h

theorem decDeg_keys (deg : List (String × Int)) (m : String) :
    (decDeg deg m).map (·.1) = deg.map (·.1) := by
  simp only [decDeg, List.map_map]
  apply List.map_congr_left
  intro p _
  by_cases h : p.1 = m <;> simp [h]

theorem degOf_decDeg_other {deg : List (String × Int)} {n m : String} (h : n ≠ m) :
    degOf (decDeg deg m) n = degOf deg n := by
  unfold degOf decDeg
  rw [find?_key_map _ _ (fun p => by by_cases hp : p.1 = m <;> simp [hp])]
  rcases hf : deg.find? (fun p => p.1 == n) with _ | p
  · simp [hf]
  · have hkey : p.1 = n := by
      have h2 := List.find?_some hf
      simpa using h2
    have hne : p.1 ≠ m := by simp [hkey, h]
    simp [hf, hne]

theorem degOf_decDeg_self {deg : List (String × Int)} {m : String}
    (hm : m ∈ deg.map (·.1)) : degOf (decDeg deg m) m = degOf deg m - 1 := by
  unfold degOf decDeg
  rw [find?_key_map _ _ (fun p => by by_cases hp : p.1 = m <;> simp [hp])]
  rcases hf : deg.find? (fun p => p.1 == m) with _ | p
  · exfalso
    rcases List.mem_map.mp hm with ⟨q, hq, rfl⟩
    have := List.find?_eq_none.mp hf q hq
    simp at this
  · have hkey : p.1 = m := by
      have h2 := List.find?_some hf
      simpa using h2
    simp [hf, hkey]

/-! ### Acyclicity tools -/

theorem edge_mem_keys {g : Graph} {x y : String} (h : Edge g x y) : x ∈ keysOf g := by
  apply mem_keys_of_depsOf_ne_nil
  intro he
  rw [Edge, he] at h
  cases h

/-- A finite node set whose every member has a dependency inside the set
produces a dependency cycle (no minimal element in a finite acyclic order). -/
theorem cycle_of_all_have_dep (g : Graph) (T : List String) (hne : T ≠ [])
    (hstep : ∀ n ∈ T, ∃ d ∈ depsOf g n, d ∈ T) :
    ∃ x, Relation.TransGen (Edge g) x x := by
  by_contra hc
  push_neg at hc
  haveI hfin : Finite {x : String // x ∈ T} := (List.finite_toSet T).to_subtype
  let r : {x // x ∈ T} → {x // x ∈ T} → Prop :=
    fun a b => Relation.TransGen (Edge g) b.1 a.1
  haveI : IsTrans {x // x ∈ T} r :=
    ⟨fun _ _ _ hab hbc => Relation.TransGen.trans hbc hab⟩
  haveI : IsIrrefl {x // x ∈ T} r := ⟨fun a ha => hc a.1 ha⟩
  rcases List.exists_mem_of_ne_nil T hne with ⟨x0, hx0⟩
  rcases (Finite.wellFounded_of_trans_of_irrefl r).has_min Set.univ
    ⟨⟨x0, hx0⟩, Set.mem_univ _⟩ with ⟨m, _, hmin⟩
  rcases hstep m.1 m.2 with ⟨d, hd, hdT⟩
  exact hmin ⟨d, hdT⟩ (Set.mem_univ _) (Relation.TransGen.single hd)

theorem indexOf_append_of_mem {l : List String} (r : List String) {a : String} (h : a ∈ l) :
    (l ++ r).indexOf a = l.indexOf a ∧ l.indexOf a < l.length := by
  induction l with
  | nil => cases h
  | cons b rest ih =>
    by_cases hb : b = a
    · subst hb
      simp [List.indexOf_cons_self]
    · rcases List.mem_cons.mp h with rfl | h'
      · exact absurd rfl hb
      · rcases ih h' with ⟨h1, h2⟩
        constructor
        · rw [List.cons_append, List.indexOf_cons_ne _ hb, List.indexOf_cons_ne _ hb, h1]
        · rw [List.indexOf_cons_ne _ hb]
          simpa using Nat.succ_lt_succ h2

theorem indexOf_append_self {l : List String} (r : List String) {a : String} (h : a ∉ l) :
    (l ++ a :: r).indexOf a = l.length := by
  induction l with
  | nil => simp [List.indexOf_cons_self]
  | cons b rest ih =>
    have hb : b ≠ a := fun he => h (he ▸ List.mem_cons_self b rest)
    rw [List.cons_append, List.indexOf_cons_ne _ hb,
      ih (fun hm => h (List.mem_cons_of_mem _ hm))]
    rfl

/-- Topological-prefix property of a removal order: every dependency of an
element appears strictly before it. -/
def SortedTopo (g : Graph) (s : List String) : Prop :=
  ∀ l n r, s = l ++ n :: r → ∀ d ∈ depsOf g n, d ∈ l

theorem sortedTopo_index {g : Graph} {S : List String} (hnd : S.Nodup)
    (ht : SortedTopo g S) :
    ∀ n ∈ S, ∀ d ∈ depsOf g n, d ∈ S ∧ S.indexOf d < S.indexOf n := by
  intro n hn d hd
  rcases List.append_of_mem hn with ⟨l, r, rfl⟩
  have hdl : d ∈ l := ht l n r rfl d hd
  have hnl : n ∉ l := by
    intro hmem
    have := List.disjoint_of_nodup_append hnd
    exact this hmem (List.mem_cons_self n r)
  refine ⟨List.mem_append.mpr (Or.inl hdl), ?_⟩
  rcases indexOf_append_of_mem (n :: r) hdl with ⟨h1, h2⟩
  rw [h1, indexOf_append_self r hnl]
  exact h2

/-- A duplicate-free order that covers the keys and lists every dependency
before its dependent certifies acyclicity. -/
theorem acyclic_of_order (g : Graph) (ord : List String)
    (hcov : ∀ k ∈ keysOf g, k ∈ ord)
    (htopo : ∀ n ∈ ord, ∀ d ∈ depsOf g n, d ∈ ord ∧ ord.indexOf d < ord.indexOf n) :
    Acyclic g := by
  have hstep : ∀ x y, Edge g x y → ord.indexOf y < ord.indexOf x := by
    intro x y hxy
    exact (htopo x (hcov x (edge_mem_keys hxy)) y hxy).2
  have hdesc : ∀ a b, Relation.TransGen (Edge g) a b → ord.indexOf b < ord.indexOf a := by
    intro a b h
    induction h with
    | single h => exact hstep _ _ h
    | tail _ hbc ih => exact lt_trans (hstep _ _ hbc) ih
  intro x hx
  exact lt_irrefl _ (hdesc x x hx)

/-- Executable certificate for `Acyclic` at concrete graphs. -/
def isTopoOrder (g : Graph) (ord : List String) : Bool :=
  (keysOf g).all (fun k => ord.contains k) &&
    ord.all (fun n => (depsOf g n).all
      (fun d => ord.contains d && Nat.blt (ord.indexOf d) (ord.indexOf n)))

theorem acyclic_of_isTopoOrder {g : Graph} {ord : List String}
    (h : isTopoOrder g ord = true) : Acyclic g := by
  rcases Bool.and_eq_true_iff.mp h with ⟨hcov, htopo⟩
  apply acyclic_of_order g ord
  · intro k hk
    have := List.all_eq_true.mp hcov k hk
    simpa using this
  · intro n hn d hd
    have h2 := List.all_eq_true.mp (List.all_eq_true.mp htopo n hn) d hd
    rcases Bool.and_eq_true_iff.mp h2 with ⟨hc, hlt⟩
    exact ⟨by simpa using hc, Nat.blt_eq.mp hlt⟩

/-! ### Dependency-set facts under well-formedness -/

theorem depsOf_of_not_mem_keys {g : Graph} {n : String} (h : n ∉ keysOf g) :
    depsOf g n = [] := by
  have hf : g.find? (fun p => p.1 == n) = none := by
    apply List.find?_eq_none.mpr
    intro p hp
    simp only [beq_iff_eq]
    exact fun he => h (List.mem_map.mpr ⟨p, hp, he⟩)
  simp [depsOf, hf]

theorem depsOf_closed {g : Graph} (hwf : WFGraph g) {n d : String}
    (hd : d ∈ depsOf g n) : d ∈ keysOf g := by
  have hn : n ∈ keysOf g := mem_keys_of_depsOf_ne_nil (fun he => by rw [he] at hd; cases hd)
  exact hwf.2.2 _ (entry_of_mem_keys hwf.1 hn) d hd

theorem depsOf_nodup {g : Graph} (hwf : WFGraph g) (n : String) :
    (depsOf g n).Nodup := by
  by_cases hn : n ∈ keysOf g
  · exact hwf.2.1 _ (entry_of_mem_keys hwf.1 hn)
  · rw [depsOf_of_not_mem_keys hn]
    exact List.nodup_nil

theorem forwardOf_nodup {g : Graph} (hnd : (keysOf g).Nodup) (d : String) :
    (forwardOf g d).Nodup := by
  unfold forwardOf
  exact (List.Sublist.map _ (List.filter_sublist g)).nodup (by simpa [keysOf] using hnd)

theorem mem_forwardOf {g : Graph} (hnd : (keysOf g).Nodup) {d m : String} :
    m ∈ forwardOf g d ↔ m ∈ keysOf g ∧ d ∈ depsOf g m := by
  constructor
  · intro h
    rcases List.mem_map.mp h with ⟨p, hp, rfl⟩
    have hpg : p ∈ g := (List.mem_filter.mp hp).1
    have hpd := (List.mem_filter.mp hp).2
    refine ⟨List.mem_map.mpr ⟨p, hpg, rfl⟩, ?_⟩
    rw [depsOf_eq_of_mem hnd hpg]
    simpa using hpd
  · rintro ⟨hm, hd⟩
    exact List.mem_map.mpr
      ⟨(m, depsOf g m), List.mem_filter.mpr ⟨entry_of_mem_keys hnd hm, by simpa using hd⟩, rfl⟩

/-- Appending one completed node drops exactly one unsatisfied dependency when
that node is a dependency. -/
theorem count_drop_one {A : List String} (hnd : A.Nodup) {a : String} (ha : a ∈ A)
    {sorted : List String} (hs : a ∉ sorted) :
    (A.filter (fun d => !(sorted ++ [a]).contains d)).length + 1
      = (A.filter (fun d => !sorted.contains d)).length := by
  induction A with
  | nil => cases ha
  | cons b rest ih =>
    have hbr : b ∉ rest := (List.nodup_cons.mp hnd).1
    have hrnd : rest.Nodup := (List.nodup_cons.mp hnd).2
    by_cases hb : b = a
    · subst hb
      have har : b ∉ rest := hbr
      have hfe : rest.filter (fun d => !(sorted ++ [b]).contains d)
          = rest.filter (fun d => !sorted.contains d) := by
        apply List.filter_congr
        intro x hx
        have hxb : x ≠ b := fun he => har (he ▸ hx)
        simp [hxb]
      simp only [List.filter_cons]
      rw [show (!(sorted ++ [b]).contains b) = false by simp,
        show (!sorted.contains b) = true by simpa using hs]
      rw [if_neg (by simp), if_pos rfl, hfe]
      simp
    · rcases List.mem_cons.mp ha with rfl | har
      · exact absurd rfl hb
      · have hbc : ((sorted ++ [a]).contains b) = (sorted.contains b) := by
          by_cases hbs : b ∈ sorted <;> simp [hbs, hb]
        simp only [List.filter_cons, hbc]
        by_cases hbs : b ∈ sorted
        · rw [show (!sorted.contains b) = false by simpa using hbs]
          rw [if_neg (by simp), if_neg (by simp)]
          exact ih hrnd har
        · rw [show (!sorted.contains b) = true by simpa using hbs]
          rw [if_pos rfl, if_pos rfl]
          simp only [List.length_cons]
          have h3 := ih hrnd har
          omega

theorem eq_singleton_of_length_one {α : Type} {l : List α} (h : l.length = 1) {a : α}
    (ha : a ∈ l) : l = [a] := by
  match l, h with
  | [x], _ =>
    rcases List.mem_singleton.mp ha with rfl
    rfl

theorem exists_ne_of_nodup_of_length_ne_one {α : Type} {l : List α} (hnd : l.Nodup)
    {a : α} (ha : a ∈ l) (hlen : l.length ≠ 1) : ∃ b ∈ l, b ≠ a := by
  by_contra hc
  push_neg at hc
  apply hlen
  have hla : l = [a] := by
    cases l with
    | nil => cases ha
    | cons x rest =>
      have hx : x = a := hc x (List.mem_cons_self _ _)
      subst hx
      cases rest with
      | nil => rfl
      | cons y rest' =>
        have hy : y = x := hc y (List.mem_cons_of_mem _ (List.mem_cons_self _ _))
        have hxm : x ∈ y :: rest' := by
          rw [← hy]
          exact List.mem_cons_self _ _
        exact absurd hxm (List.nodup_cons.mp hnd).1
  rw [hla]
  rfl

theorem sortedTopo_append_one {g : Graph} {sorted : List String} {node : String}
    (ht : SortedTopo g sorted) (hd : ∀ d ∈ depsOf g node, d ∈ sorted) :
    SortedTopo g (sorted ++ [node]) := by
  intro l n r heq d hdn
  by_cases hr : r = []
  · subst hr
    have h2 : sorted = l ∧ [node] = [n] := List.append_inj' heq rfl
    rcases h2 with ⟨rfl, h3⟩
    have : node = n := by simpa using h3
    subst this
    exact hd d hdn
  · have hlast : r.dropLast ++ [r.getLast hr] = r := List.dropLast_append_getLast hr
    have heq2 : sorted ++ [node] = (l ++ n :: r.dropLast) ++ [r.getLast hr] := by
      calc sorted ++ [node] = l ++ n :: r := heq
      _ = l ++ n :: (r.dropLast ++ [r.getLast hr]) := by rw [hlast]
      _ = (l ++ n :: r.dropLast) ++ [r.getLast hr] := by simp
    have h3 : sorted = l ++ n :: r.dropLast := (List.append_inj' heq2 rfl).1
    exact ht l n r.dropLast h3 d hdn

/-! ### The Kahn relaxation fold -/

theorem relax_fold (ms : List String) (hnd : ms.Nodup) :
    ∀ (deg : List (String × Int)) (queue : List String),
    (∀ m ∈ ms, m ∈ deg.map (·.1)) →
    ((ms.foldl relaxStep (deg, queue)).1.map (·.1) = deg.map (·.1)) ∧
    (∀ n, degOf (ms.foldl relaxStep (deg, queue)).1 n =
      if n ∈ ms then degOf deg n - 1 else degOf deg n) ∧
    (ms.foldl relaxStep (deg, queue)).2
      = queue ++ ms.filter (fun m => degOf deg m == 1) := by
  induction ms with
  | nil =>
    intro deg queue _
    refine ⟨rfl, fun n => by simp, by simp⟩
  | cons m rest ih =>
    intro deg queue hsub
    have hm : m ∈ deg.map (·.1) := hsub m (List.mem_cons_self _ _)
    have hmr : m ∉ rest := (List.nodup_cons.mp hnd).1
    have hndr : rest.Nodup := (List.nodup_cons.mp hnd).2
    have hdecm : degOf (decDeg deg m) m = degOf deg m - 1 := degOf_decDeg_self hm
    have hstep : relaxStep (deg, queue) m =
        (decDeg deg m, if degOf deg m == 1 then queue ++ [m] else queue) := by
      show (if degOf (decDeg deg m) m == 0
        then (decDeg deg m, queue ++ [m]) else (decDeg deg m, queue)) = _
      rw [hdecm]
      by_cases h1 : degOf deg m = 1
      · rw [if_pos (by simp [h1]), if_pos (by simp [h1])]
      · have h2 : ¬ (degOf deg m - 1 = 0) := by omega
        rw [if_neg (by simpa using h2), if_neg (by simpa using h1)]
    have hfold : (m :: rest).foldl relaxStep (deg, queue)
        = rest.foldl relaxStep (relaxStep (deg, queue) m) := rfl
    rw [hfold, hstep]
    have hsub2 : ∀ m2 ∈ rest, m2 ∈ (decDeg deg m).map (·.1) := by
      intro m2 hm2
      rw [decDeg_keys]
      exact hsub m2 (List.mem_cons_of_mem _ hm2)
    obtain ⟨ihk, ihd, ihq⟩ :=
      ih hndr (decDeg deg m) (if degOf deg m == 1 then queue ++ [m] else queue) hsub2
    refine ⟨by rw [ihk, decDeg_keys], ?_, ?_⟩
    · intro n
      rw [ihd n]
      by_cases hn : n ∈ rest
      · have hnm : n ≠ m := fun he => hmr (he ▸ hn)
        rw [if_pos hn, if_pos (List.mem_cons_of_mem _ hn), degOf_decDeg_other hnm]
      · by_cases hnm : n = m
        · subst hnm
          rw [if_neg hn, if_pos (List.mem_cons_self _ _), hdecm]
        · rw [if_neg hn, if_neg (by simp [hnm, hn]), degOf_decDeg_other hnm]
    · rw [ihq]
      have hfe : rest.filter (fun m2 => degOf (decDeg deg m) m2 == 1)
          = rest.filter (fun m2 => degOf deg m2 == 1) := by
        apply List.filter_congr
        intro x hx
        have hxm : x ≠ m := fun he => hmr (he ▸ hx)
        rw [degOf_decDeg_other hxm]
      rw [hfe]
      by_cases h1 : degOf deg m = 1
      · rw [if_pos (by simp [h1])]
        rw [show (m :: rest).filter (fun m2 => degOf deg m2 == 1)
          = m :: rest.filter (fun m2 => degOf deg m2 == 1) by
            rw [List.filter_cons, if_pos (by simp [h1])]]
        simp
      · rw [if_neg (by simpa using h1)]
        rw [show (m :: rest).filter (fun m2 => degOf deg m2 == 1)
          = rest.filter (fun m2 => degOf deg m2 == 1) by
            rw [List.filter_cons, if_neg (by simpa using h1)]]

/-- Loop invariant of the Kahn `while` loop of `detectCycles`. -/
structure KInv (g : Graph) (deg : List (String × Int)) (queue sorted : List String) : Prop where
  nodup : (sorted ++ queue).Nodup
  subk : ∀ x ∈ sorted ++ queue, x ∈ keysOf g
  degk : deg.map (·.1) = keysOf g
  degval : ∀ n ∈ keysOf g,
    degOf deg n = (((depsOf g n).filter (fun d => !sorted.contains d)).length : Int)
  qzero : ∀ n ∈ queue, ∀ d ∈ depsOf g n, d ∈ sorted
  complete : ∀ n ∈ keysOf g, n ∉ sorted → n ∉ queue → ∃ d ∈ depsOf g n, ¬ d ∈ sorted
  topo : SortedTopo g sorted

/-- One iteration of the Kahn loop preserves the invariant. -/
theorem kinv_step {g : Graph} (hwf : WFGraph g) {deg : List (String × Int)}
    {queue sorted : List String} {node : String}
    (inv : KInv g deg (node :: queue) sorted) :
    KInv g ((forwardOf g node).foldl relaxStep (deg, queue)).1
      ((forwardOf g node).foldl relaxStep (deg, queue)).2 (sorted ++ [node]) := by
  have hknd : (keysOf g).Nodup := hwf.1
  have hfnd : (forwardOf g node).Nodup := forwardOf_nodup hknd node
  have hfsub : ∀ m ∈ forwardOf g node, m ∈ deg.map (·.1) := by
    intro m hm
    rw [inv.degk]
    exact ((mem_forwardOf hknd).mp hm).1
  obtain ⟨hk, hd, hq⟩ := relax_fold (forwardOf g node) hfnd deg queue hfsub
  have hnodek : node ∈ keysOf g :=
    inv.subk node (List.mem_append_right _ (List.mem_cons_self _ _))
  have hnods : node ∉ sorted := by
    intro hmem
    exact (List.disjoint_of_nodup_append inv.nodup) hmem (List.mem_cons_self _ _)
  have hdepnode : ∀ d ∈ depsOf g node, d ∈ sorted := inv.qzero node (List.mem_cons_self _ _)
  have hsorted_zero : ∀ n ∈ sorted, (depsOf g n).filter (fun d => !sorted.contains d) = [] := by
    intro n hn
    rcases List.append_of_mem hn with ⟨l, r, hsr⟩
    apply List.filter_eq_nil_iff.mpr
    intro d hdn
    have hdl : d ∈ l := inv.topo l n r hsr d hdn
    have : d ∈ sorted := hsr ▸ List.mem_append.mpr (Or.inl hdl)
    simp [this]
  have hqueue_zero : ∀ n ∈ queue, (depsOf g n).filter (fun d => !sorted.contains d) = [] := by
    intro n hn
    apply List.filter_eq_nil_iff.mpr
    intro d hdn
    have := inv.qzero n (List.mem_cons_of_mem _ hn) d hdn
    simp [this]
  have hnode_zero : (depsOf g node).filter (fun d => !sorted.contains d) = [] := by
    apply List.filter_eq_nil_iff.mpr
    intro d hdn
    simp [hdepnode d hdn]
  have henq_mem : ∀ m ∈ (forwardOf g node).filter (fun m => degOf deg m == 1),
      m ∈ keysOf g ∧ node ∈ depsOf g m ∧ degOf deg m = 1 := by
    intro m hm
    have h1 := (List.mem_filter.mp hm).1
    have h2 := (List.mem_filter.mp hm).2
    rcases (mem_forwardOf hknd).mp h1 with ⟨hmk, hmd⟩
    exact ⟨hmk, hmd, by simpa using h2⟩
  have henq_props : ∀ m ∈ (forwardOf g node).filter (fun m => degOf deg m == 1),
      m ∉ sorted ∧ m ∉ queue ∧ m ≠ node ∧
      (depsOf g m).filter (fun d => !sorted.contains d) = [node] := by
    intro m hm
    obtain ⟨hmk, hmd, hm1⟩ := henq_mem m hm
    have hlen : ((depsOf g m).filter (fun d => !sorted.contains d)).length = 1 := by
      have hc := inv.degval m hmk
      rw [hm1] at hc
      exact_mod_cast hc.symm
    have hnodein : node ∈ (depsOf g m).filter (fun d => !sorted.contains d) :=
      List.mem_filter.mpr ⟨hmd, by simpa using hnods⟩
    have hfeq : (depsOf g m).filter (fun d => !sorted.contains d) = [node] :=
      eq_singleton_of_length_one hlen hnodein
    refine ⟨?_, ?_, ?_, hfeq⟩
    · intro hms
      rw [hsorted_zero m hms] at hfeq
      exact List.noConfusion hfeq
    · intro hmq
      rw [hqueue_zero m hmq] at hfeq
      exact List.noConfusion hfeq
    · intro hmn
      subst hmn
      rw [hnode_zero] at hfeq
      exact List.noConfusion hfeq
  have hXnodup : (sorted ++ [node] ++ queue).Nodup := by
    have h0 : sorted ++ [node] ++ queue = sorted ++ node :: queue := by simp
    rw [h0]
    exact inv.nodup
  refine ⟨?_, ?_, ?_, ?_, ?_, ?_, ?_⟩
  · -- nodup
    rw [hq]
    have henqnodup : ((forwardOf g node).filter (fun m => degOf deg m == 1)).Nodup :=
      hfnd.filter _
    have hdisj : (sorted ++ [node] ++ queue).Disjoint
        ((forwardOf g node).filter (fun m => degOf deg m == 1)) := by
      intro x hx hxe
      obtain ⟨hns, hnq, hnn, _⟩ := henq_props x hxe
      rcases List.mem_append.mp hx with hx2 | hxq
      · rcases List.mem_append.mp hx2 with hxs | hxn
        · exact hns hxs
        · exact hnn (List.mem_singleton.mp hxn)
      · exact hnq hxq
    have hres := hXnodup.append henqnodup hdisj
    simpa [List.append_assoc] using hres
  · -- subk
    intro x hx
    rw [hq] at hx
    rcases List.mem_append.mp hx with hx2 | hxq
    · rcases List.mem_append.mp hx2 with hxs | hxn
      · exact inv.subk x (List.mem_append_left _ hxs)
      · rw [List.mem_singleton.mp hxn]
        exact hnodek
    · rcases List.mem_append.mp hxq with hxq2 | hxe
      · exact inv.subk x (List.mem_append_right _ (List.mem_cons_of_mem _ hxq2))
      · exact (henq_mem x hxe).1
  · -- degk
    rw [hk]
    exact inv.degk
  · -- degval
    intro n hn
    rw [hd n]
    by_cases hfw : n ∈ forwardOf g node
    · rcases (mem_forwardOf hknd).mp hfw with ⟨_, hnd2⟩
      have hcd := count_drop_one (depsOf_nodup hwf n) hnd2 hnods
      rw [if_pos hfw, inv.degval n hn]
      have hle := hcd
      push_cast [← hle]
      ring
    · have hnd2 : node ∉ depsOf g n := fun hc => hfw ((mem_forwardOf hknd).mpr ⟨hn, hc⟩)
      rw [if_neg hfw, inv.degval n hn]
      congr 2
      apply List.filter_congr
      intro d hdn
      have hdne : d ≠ node := fun he => hnd2 (he ▸ hdn)
      by_cases hds : d ∈ sorted <;> simp [hds, hdne]
  · -- qzero
    intro n hn d hdn
    rw [hq] at hn
    rcases List.mem_append.mp hn with hnq | hne
    · exact List.mem_append_left _ (inv.qzero n (List.mem_cons_of_mem _ hnq) d hdn)
    · obtain ⟨_, _, _, hfeq⟩ := henq_props n hne
      by_cases hds : d ∈ sorted
      · exact List.mem_append_left _ hds
      · have : d ∈ (depsOf g n).filter (fun d => !sorted.contains d) :=
          List.mem_filter.mpr ⟨hdn, by simpa using hds⟩
        rw [hfeq] at this
        rw [List.mem_singleton.mp this]
        exact List.mem_append_right _ (List.mem_singleton.mpr rfl)
  · -- complete
    intro n hn hn1 hn2
    rw [hq] at hn2
    have hnsort : n ∉ sorted := fun hc => hn1 (List.mem_append_left _ hc)
    have hnnode : n ≠ node := fun hc =>
      hn1 (List.mem_append_right _ (List.mem_singleton.mpr hc))
    have hnq : n ∉ queue := fun hc => hn2 (List.mem_append_left _ hc)
    have hne : n ∉ (forwardOf g node).filter (fun m => degOf deg m == 1) :=
      fun hc => hn2 (List.mem_append_right _ hc)
    rcases inv.complete n hn hnsort
      (fun hc => (List.mem_cons.mp hc).elim hnnode hnq) with ⟨d, hdn, hds⟩
    by_cases hdnode : d = node
    · have hfw : n ∈ forwardOf g node := (mem_forwardOf hknd).mpr ⟨hn, hdnode ▸ hdn⟩
      have hdeg1 : degOf deg n ≠ 1 := by
        intro hc
        exact hne (List.mem_filter.mpr ⟨hfw, by simp [hc]⟩)
      have hlen1 : ((depsOf g n).filter (fun d2 => !sorted.contains d2)).length ≠ 1 := by
        intro hc
        apply hdeg1
        rw [inv.degval n hn, hc]
        rfl
      have hAnodup : ((depsOf g n).filter (fun d2 => !sorted.contains d2)).Nodup :=
        (depsOf_nodup hwf n).filter _
      have hAin : d ∈ (depsOf g n).filter (fun d2 => !sorted.contains d2) :=
        List.mem_filter.mpr ⟨hdn, by simpa using hds⟩
      rcases exists_ne_of_nodup_of_length_ne_one hAnodup hAin hlen1 with ⟨d2, hd2A, hd2ne⟩
      have hd2dep : d2 ∈ depsOf g n := (List.mem_filter.mp hd2A).1
      have hd2ns : d2 ∉ sorted := by
        have := (List.mem_filter.mp hd2A).2
        simpa using this
      refine ⟨d2, hd2dep, ?_⟩
      intro hc
      rcases List.mem_append.mp hc with hc2 | hc3
      · exact hd2ns hc2
      · exact hd2ne ((List.mem_singleton.mp hc3).trans hdnode.symm)
    · refine ⟨d, hdn, ?_⟩
      intro hc
      rcases List.mem_append.mp hc with hc2 | hc3
      · exact hds hc2
      · exact hdnode (List.mem_singleton.mp hc3)
  · -- topo
    exact sortedTopo_append_one inv.topo hdepnode

/-- Conclusion extracted from the invariant once the queue is empty. -/
theorem kinv_final {g : Graph} {deg : List (String × Int)} {sorted : List String}
    (inv : KInv g deg [] sorted) :
    sorted.Nodup ∧ (∀ x ∈ sorted, x ∈ keysOf g) ∧ SortedTopo g sorted ∧
      (∀ n ∈ keysOf g, n ∉ sorted → ∃ d ∈ depsOf g n, ¬ d ∈ sorted) := by
  refine ⟨by simpa using inv.nodup, fun x hx => inv.subk x (by simpa using hx), inv.topo,
    fun n hn hns => inv.complete n hn hns (List.not_mem_nil n)⟩

theorem kahnLoop_post (g : Graph) (hwf : WFGraph g) :
    ∀ (fuel : Nat) (deg : List (String × Int)) (queue sorted : List String),
      KInv g deg queue sorted →
      g.length ≤ fuel + sorted.length →
      ((kahnLoop g fuel deg queue sorted).Nodup ∧
        (∀ x ∈ kahnLoop g fuel deg queue sorted, x ∈ keysOf g) ∧
        SortedTopo g (kahnLoop g fuel deg queue sorted) ∧
        (∀ n ∈ keysOf g, n ∉ kahnLoop g fuel deg queue sorted →
          ∃ d ∈ depsOf g n, ¬ d ∈ kahnLoop g fuel deg queue sorted)) := by
  intro fuel
  induction fuel with
  | zero =>
    intro deg queue sorted inv hfuel
    cases queue with
    | nil => exact kinv_final inv
    | cons q qs =>
      exfalso
      have hsnd : sorted.Nodup := inv.nodup.of_append_left
      have hsp : sorted.Subperm (keysOf g) :=
        List.subperm_of_subset hsnd fun x hx => inv.subk x (List.mem_append_left _ hx)
      have hperm : sorted.Perm (keysOf g) := by
        apply hsp.perm_of_length_le
        have : (keysOf g).length = g.length := by simp [keysOf]
        omega
      have hqk : q ∈ keysOf g :=
        inv.subk q (List.mem_append_right _ (List.mem_cons_self _ _))
      have hqs : q ∈ sorted := hperm.mem_iff.mpr hqk
      exact (List.disjoint_of_nodup_append inv.nodup) hqs (List.mem_cons_self _ _)
  | succ fuel ih =>
    intro deg queue sorted inv hfuel
    cases queue with
    | nil => exact kinv_final inv
    | cons node qs =>
      have hres : kahnLoop g (fuel + 1) deg (node :: qs) sorted
          = kahnLoop g fuel ((forwardOf g node).foldl relaxStep (deg, qs)).1
              ((forwardOf g node).foldl relaxStep (deg, qs)).2 (sorted ++ [node]) := rfl
      rw [hres]
      apply ih _ _ _ (kinv_step hwf inv)
      simp only [List.length_append, List.length_singleton]
      omega

/-- The invariant holds at the entry of the Kahn loop. -/
theorem kinv_init (g : Graph) (hwf : WFGraph g) :
    KInv g (g.map (fun p => (p.1, (p.2.length : Int))))
      ((g.filter (fun p => p.2.isEmpty)).map (·.1)) [] := by
  have hknd : (keysOf g).Nodup := hwf.1
  have hqsub : ((g.filter (fun p => p.2.isEmpty)).map (·.1)).Sublist (keysOf g) := by
    unfold keysOf
    exact List.Sublist.map _ (List.filter_sublist g)
  refine ⟨?_, ?_, ?_, ?_, ?_, ?_, ?_⟩
  · simpa using hqsub.nodup hknd
  · intro x hx
    simp only [List.nil_append] at hx
    exact hqsub.subset hx
  · simp [keysOf]
  · intro n hn
    have hfk := find?_key_map g (fun p => (p.1, (p.2.length : Int))) (fun p => rfl) n
    unfold degOf depsOf
    rw [hfk]
    rcases hf : g.find? (fun p => p.1 == n) with _ | p
    · exfalso
      rcases List.mem_map.mp hn with ⟨q, hq, rfl⟩
      have := List.find?_eq_none.mp hf q hq
      simp at this
    · simp [hf]
  · intro n hn d hdn
    exfalso
    rcases List.mem_map.mp hn with ⟨p, hp, rfl⟩
    have hpg : p ∈ g := (List.mem_filter.mp hp).1
    have hpe : p.2 = [] := List.isEmpty_iff.mp (List.mem_filter.mp hp).2
    rw [depsOf_eq_of_mem hknd hpg, hpe] at hdn
    cases hdn
  · intro n hn hns hnq
    have hent := entry_of_mem_keys hknd hn
    by_cases he : depsOf g n = []
    · exfalso
      apply hnq
      apply List.mem_map.mpr
      exact ⟨(n, depsOf g n), List.mem_filter.mpr ⟨hent, by simp [he]⟩, rfl⟩
    · rcases List.exists_mem_of_ne_nil _ he with ⟨d, hd⟩
      exact ⟨d, hd, List.not_mem_nil d⟩
  · intro l n r heq d hd
    exfalso
    cases l with
    | nil => exact List.noConfusion heq
    | cons a l2 => exact List.noConfusion heq

theorem kahnSorted_spec (g : Graph) (hwf : WFGraph g) :
    (kahnSorted g).Nodup ∧ (∀ x ∈ kahnSorted g, x ∈ keysOf g) ∧
      SortedTopo g (kahnSorted g) ∧
      (∀ n ∈ keysOf g, n ∉ kahnSorted g → ∃ d ∈ depsOf g n, ¬ d ∈ kahnSorted g) :=
  kahnLoop_post g hwf g.length _ _ [] (kinv_init g hwf) (by simp)

/-- Kahn's algorithm removes every node exactly for acyclic well-formed
graphs. -/
theorem detectCycles_none_iff {g : Graph} (hwf : WFGraph g) :
    detectCycles g = none ↔ Acyclic g := by
  obtain ⟨hnd, hsub, htopo, hcomp⟩ := kahnSorted_spec g hwf
  have hkl : (keysOf g).length = g.length := by simp [keysOf]
  constructor
  · intro h
    have hnlt : ¬ (kahnSorted g).length < g.length := by
      intro hlt
      unfold detectCycles at h
      rw [if_pos hlt] at h
      exact Option.noConfusion h
    have hsp : (kahnSorted g).Subperm (keysOf g) :=
      List.subperm_of_subset hnd fun x hx => hsub x hx
    have hperm : (kahnSorted g).Perm (keysOf g) := hsp.perm_of_length_le (by omega)
    exact acyclic_of_order g (kahnSorted g)
      (fun k hk => hperm.mem_iff.mpr hk)
      (sortedTopo_index hnd htopo)
  · intro hac
    have hnlt : ¬ (kahnSorted g).length < g.length := by
      intro hlt
      have hTne : (keysOf g).filter (fun k => !(kahnSorted g).contains k) ≠ [] := by
        intro hTnil
        have hall : ∀ k ∈ keysOf g, k ∈ kahnSorted g := by
          intro k hk
          by_contra hkn
          have hmem : k ∈ (keysOf g).filter (fun k => !(kahnSorted g).contains k) :=
            List.mem_filter.mpr ⟨hk, by simpa using hkn⟩
          rw [hTnil] at hmem
          cases hmem
        have hsp2 : (keysOf g).Subperm (kahnSorted g) :=
          List.subperm_of_subset hwf.1 hall
        have := hsp2.length_le
        omega
      have hstep : ∀ n ∈ (keysOf g).filter (fun k => !(kahnSorted g).contains k),
          ∃ d ∈ depsOf g n, d ∈ (keysOf g).filter (fun k => !(kahnSorted g).contains k) := by
        intro n hn
        have hnk : n ∈ keysOf g := (List.mem_filter.mp hn).1
        have hns : n ∉ kahnSorted g := by
          have := (List.mem_filter.mp hn).2
          simpa using this
        rcases hcomp n hnk hns with ⟨d, hd, hds⟩
        exact ⟨d, hd, List.mem_filter.mpr ⟨depsOf_closed hwf hd, by simpa using hds⟩⟩
      rcases cycle_of_all_have_dep g _ hTne hstep with ⟨x, hx⟩
      exact hac x hx
    unfold detectCycles
    rw [if_neg hnlt]

/-! ### Wave scheduler -/

theorem ready_iff {g : Graph} {completed : List String} {n : String} :
    readyFor g completed n = true ↔ ∀ d ∈ depsOf g n, d ∈ completed := by
  unfold readyFor
  rw [List.all_eq_true]
  constructor
  · intro h d hd
    simpa using h d hd
  · intro h d hd
    simpa using h d hd

theorem not_ready_exists {g : Graph} {completed : List String} {n : String}
    (h : readyFor g completed n ≠ true) : ∃ d ∈ depsOf g n, d ∉ completed := by
  by_contra hc
  push_neg at hc
  exact h (ready_iff.mpr hc)

theorem buildWavesAux_nil (g : Graph) (completed : List String) :
    buildWavesAux g completed [] = some [] := by
  unfold buildWavesAux
  simp

theorem buildWavesAux_stuck {g : Graph} {completed remaining : List String}
    (hne : remaining ≠ []) (hw : remaining.filter (readyFor g completed) = []) :
    buildWavesAux g completed remaining = none := by
  unfold buildWavesAux
  rw [if_neg hne, dif_pos hw]

theorem buildWavesAux_step {g : Graph} {completed remaining : List String}
    (hne : remaining ≠ []) (hw : remaining.filter (readyFor g completed) ≠ []) :
    buildWavesAux g completed remaining =
      (buildWavesAux g
        (completed ++
          (remaining.filter (readyFor g completed)).mergeSort (fun a b => decide (a ≤ b)))
        (remaining.filter (fun n => !readyFor g completed n))).map
        (fun ws =>
          (remaining.filter (readyFor g completed)).mergeSort (fun a b => decide (a ≤ b)) :: ws) := by
  conv_lhs => rw [buildWavesAux]
  rw [if_neg hne, dif_neg hw]

/-- Every pass of the wave scheduler over a non-empty remaining set of a
well-formed acyclic graph finds at least one ready node. -/
theorem wave_progress {g : Graph} (hwf : WFGraph g) (hac : Acyclic g)
    {remaining completed : List String} (hne : remaining ≠ [])
    (hcoup : ∀ n, n ∈ remaining ↔ n ∈ keysOf g ∧ n ∉ completed) :
    remaining.filter (readyFor g completed) ≠ [] := by
  intro hw
  have hstep : ∀ n ∈ remaining, ∃ d ∈ depsOf g n, d ∈ remaining := by
    intro n hn
    have hnr : readyFor g completed n ≠ true := by
      intro hr
      have hmem : n ∈ remaining.filter (readyFor g completed) :=
        List.mem_filter.mpr ⟨hn, hr⟩
      rw [hw] at hmem
      cases hmem
    rcases not_ready_exists hnr with ⟨d, hd, hdc⟩
    exact ⟨d, hd, (hcoup d).mpr ⟨depsOf_closed hwf hd, hdc⟩⟩
  rcases cycle_of_all_have_dep g remaining hne hstep with ⟨x, hx⟩
  exact hac x hx

/-- Full correctness of the wave loop, by induction on the remaining set. -/
theorem buildWavesAux_spec (g : Graph) (hwf : WFGraph g) (hac : Acyclic g) :
    ∀ (N : Nat) (remaining completed : List String),
      remaining.length ≤ N →
      remaining.Nodup →
      (∀ n, n ∈ remaining ↔ n ∈ keysOf g ∧ n ∉ completed) →
      ∃ ws, buildWavesAux g completed remaining = some ws ∧
        (∀ w ∈ ws, w ≠ []) ∧
        ws.flatten.Nodup ∧
        (∀ a, a ∈ ws.flatten ↔ a ∈ remaining) ∧
        (∀ k a, a ∈ ws.getD k [] → ∀ d ∈ depsOf g a,
          d ∈ completed ∨ ∃ j, j < k ∧ d ∈ ws.getD j []) := by
  intro N
  induction N with
  | zero =>
    intro remaining completed hlen hnd hcoup
    have hrnil : remaining = [] := List.eq_nil_of_length_eq_zero (Nat.le_zero.mp hlen)
    subst hrnil
    refine ⟨[], buildWavesAux_nil g completed, ?_, ?_, ?_, ?_⟩
    · intro w hw
      cases hw
    · simp
    · intro a
      simp
    · intro k a ha
      simp at ha
  | succ N ih =>
    intro remaining completed hlen hnd hcoup
    by_cases hne : remaining = []
    · subst hne
      refine ⟨[], buildWavesAux_nil g completed, ?_, ?_, ?_, ?_⟩
      · intro w hw
        cases hw
      · simp
      · intro a
        simp
      · intro k a ha
        simp at ha
    · have hwne : remaining.filter (readyFor g completed) ≠ [] :=
        wave_progress hwf hac hne hcoup
      have hrem2len : (remaining.filter (fun n => !readyFor g completed n)).length ≤ N := by
        have hex : ∃ x ∈ remaining, ¬(!readyFor g completed x) = true := by
          rcases List.exists_mem_of_ne_nil _ hwne with ⟨x, hx⟩
          rcases List.mem_filter.mp hx with ⟨hx1, hx2⟩
          exact ⟨x, hx1, by simp [hx2]⟩
        have := List.length_filter_lt_length_iff_exists.mpr hex
        omega
      have hnd2 : (remaining.filter (fun n => !readyFor g completed n)).Nodup := hnd.filter _
      have hcoup2 : ∀ n, n ∈ remaining.filter (fun n => !readyFor g completed n) ↔
          n ∈ keysOf g ∧ n ∉ completed ++
            (remaining.filter (readyFor g completed)).mergeSort
              (fun a b => decide (a ≤ b)) := by
        intro n
        constructor
        · intro hn
          rcases List.mem_filter.mp hn with ⟨hn1, hn2⟩
          have hkc := (hcoup n).mp hn1
          refine ⟨hkc.1, ?_⟩
          intro hmem
          rcases List.mem_append.mp hmem with hc | hs
          · exact hkc.2 hc
          · have hws : n ∈ remaining.filter (readyFor g completed) :=
              List.mem_mergeSort.mp hs
            have hr := (List.mem_filter.mp hws).2
            rw [hr] at hn2
            simp at hn2
        · rintro ⟨hk, hnc⟩
          have hnotc : n ∉ completed := fun hc => hnc (List.mem_append_left _ hc)
          have hnrem : n ∈ remaining := (hcoup n).mpr ⟨hk, hnotc⟩
          apply List.mem_filter.mpr
          refine ⟨hnrem, ?_⟩
          by_cases hr : readyFor g completed n = true
          · exfalso
            apply hnc
            apply List.mem_append_right
            exact List.mem_mergeSort.mpr (List.mem_filter.mpr ⟨hnrem, hr⟩)
          · rw [Bool.not_eq_true] at hr
            simp [hr]
      obtain ⟨ws2, hws2, hwsne2, hndf2, hmemf2, hdep2⟩ := ih _ _ hrem2len hnd2 hcoup2
      refine ⟨(remaining.filter (readyFor g completed)).mergeSort
        (fun a b => decide (a ≤ b)) :: ws2, ?_, ?_, ?_, ?_, ?_⟩
      · rw [buildWavesAux_step hne hwne, hws2]
        rfl
      · intro w hw
        rcases List.mem_cons.mp hw with rfl | hw2
        · intro hsw
          apply hwne
          have hperm := List.mergeSort_perm (remaining.filter (readyFor g completed))
            (fun a b => decide (a ≤ b))
          have hle := hperm.length_eq
          rw [hsw] at hle
          exact List.eq_nil_of_length_eq_zero hle.symm
        · exact hwsne2 w hw2
      · rw [List.flatten_cons]
        apply List.Nodup.append
        · exact ((List.mergeSort_perm _ _).nodup_iff).mpr (hnd.filter _)
        · exact hndf2
        · intro x hx hx2
          have hxw := List.mem_mergeSort.mp hx
          have hr := (List.mem_filter.mp hxw).2
          have hxr2 := (hmemf2 x).mp hx2
          have hneg := (List.mem_filter.mp hxr2).2
          rw [hr] at hneg
          simp at hneg
      · intro a
        rw [List.flatten_cons, List.mem_append]
        constructor
        · intro h
          rcases h with h | h
          · exact (List.mem_filter.mp (List.mem_mergeSort.mp h)).1
          · exact (List.mem_filter.mp ((hmemf2 a).mp h)).1
        · intro ha
          by_cases hr : readyFor g completed a = true
          · exact Or.inl (List.mem_mergeSort.mpr (List.mem_filter.mpr ⟨ha, hr⟩))
          · refine Or.inr ((hmemf2 a).mpr (List.mem_filter.mpr ⟨ha, ?_⟩))
            rw [Bool.not_eq_true] at hr
            simp [hr]
      · intro k a ha d hd
        cases k with
        | zero =>
          rw [List.getD_cons_zero] at ha
          have hready := (List.mem_filter.mp (List.mem_mergeSort.mp ha)).2
          exact Or.inl (ready_iff.mp hready d hd)
        | succ k =>
          rw [List.getD_cons_succ] at ha
          rcases hdep2 k a ha d hd with hdc | ⟨j, hj, hdj⟩
          · rcases List.mem_append.mp hdc with h1 | h2
            · exact Or.inl h1
            · refine Or.inr ⟨0, Nat.succ_pos _, ?_⟩
              rw [List.getD_cons_zero]
              exact h2
          · refine Or.inr ⟨j + 1, Nat.succ_lt_succ hj, ?_⟩
            rw [List.getD_cons_succ]
            exact hdj

theorem buildExecutionWaves_some (g : Graph) (hwf : WFGraph g) (hac : Acyclic g) :
    ∃ ws, buildExecutionWaves g = some ws ∧
      (∀ w ∈ ws, w ≠ []) ∧
      ws.flatten.Nodup ∧
      (∀ a, a ∈ ws.flatten ↔ a ∈ keysOf g) ∧
      (∀ k a, a ∈ ws.getD k [] → ∀ d ∈ depsOf g a, ∃ j, j < k ∧ d ∈ ws.getD j []) := by
  obtain ⟨ws, h1, h2, h3, h4, h5⟩ := buildWavesAux_spec g hwf hac (keysOf g).length
    (keysOf g) [] (le_refl _) hwf.1 (by intro n; simp)
  refine ⟨ws, h1, h2, h3, h4, ?_⟩
  intro k a ha d hd
  rcases h5 k a ha d hd with hc | h
  · cases hc
  · exact h

/-- States the wave-scheduler `while` loop passes through, starting from the
initial state of `buildExecutionWaves`. -/
inductive WavesReach (g : Graph) : List String → List String → Prop where
  | init : WavesReach g [] (g.map (·.1))
  | step : ∀ completed remaining, WavesReach g completed remaining → remaining ≠ [] →
      remaining.filter (readyFor g completed) ≠ [] →
      WavesReach g
        (completed ++ (remaining.filter (readyFor g completed)).mergeSort
          (fun a b => decide (a ≤ b)))
        (remaining.filter (fun n => !readyFor g completed n))

theorem reach_none_iff {g : Graph} {completed remaining : List String}
    (hr : WavesReach g completed remaining) :
    (buildExecutionWaves g = none ↔ buildWavesAux g completed remaining = none) := by
  induction hr with
  | init => exact Iff.rfl
  | step completed remaining hr hne hw ih =>
    refine ih.trans ?_
    rw [buildWavesAux_step hne hw]
    exact Option.map_eq_none'

/-- The scheduler fails exactly when some reachable pass has nodes remaining
but schedules none of them. -/
theorem waves_none_iff_stuck (g : Graph) :
    buildExecutionWaves g = none ↔
      ∃ completed remaining, WavesReach g completed remaining ∧ remaining ≠ [] ∧
        remaining.filter (readyFor g completed) = [] := by
  constructor
  · intro h
    suffices haux : ∀ (N : Nat) (completed remaining : List String),
        remaining.length ≤ N →
        WavesReach g completed remaining → buildWavesAux g completed remaining = none →
        ∃ c2 r2, WavesReach g c2 r2 ∧ r2 ≠ [] ∧ r2.filter (readyFor g c2) = [] by
      have h2 : buildWavesAux g [] (g.map (·.1)) = none := h
      exact haux (g.map (·.1)).length [] (g.map (·.1)) (le_refl _) WavesReach.init h2
    intro N
    induction N with
    | zero =>
      intro completed remaining hlen hreach hnone
      have hrnil : remaining = [] := List.eq_nil_of_length_eq_zero (Nat.le_zero.mp hlen)
      subst hrnil
      rw [buildWavesAux_nil] at hnone
      exact Option.noConfusion hnone
    | succ N ih =>
      intro completed remaining hlen hreach hnone
      by_cases hne : remaining = []
      · subst hne
        rw [buildWavesAux_nil] at hnone
        exact Option.noConfusion hnone
      · by_cases hw : remaining.filter (readyFor g completed) = []
        · exact ⟨completed, remaining, hreach, hne, hw⟩
        · rw [buildWavesAux_step hne hw] at hnone
          have hnone2 := Option.map_eq_none'.mp hnone
          have hlen2 : (remaining.filter (fun n => !readyFor g completed n)).length ≤ N := by
            have hex : ∃ x ∈ remaining, ¬(!readyFor g completed x) = true := by
              rcases List.exists_mem_of_ne_nil _ hw with ⟨x, hx⟩
              rcases List.mem_filter.mp hx with ⟨hx1, hx2⟩
              exact ⟨x, hx1, by simp [hx2]⟩
            have := List.length_filter_lt_length_iff_exists.mpr hex
            omega
          exact ih _ _ hlen2 (WavesReach.step _ _ hreach hne hw) hnone2
  · rintro ⟨c2, r2, hreach, hne, hw⟩
    exact (reach_none_iff hreach).mpr (buildWavesAux_stuck hne hw)

/-- Each pass of the wave loop either throws (no ready node) or strictly
shrinks the remaining set. -/
theorem waves_pass_dichotomy (g : Graph) (completed remaining : List String)
    (hne : remaining ≠ []) :
    (remaining.filter (readyFor g completed) = [] ∧
      buildWavesAux g completed remaining = none) ∨
    (remaining.filter (readyFor g completed) ≠ [] ∧
      (remaining.filter (fun n => !readyFor g completed n)).length < remaining.length) := by
  by_cases hw : remaining.filter (readyFor g completed) = []
  · exact Or.inl ⟨hw, buildWavesAux_stuck hne hw⟩
  · refine Or.inr ⟨hw, ?_⟩
    apply List.length_filter_lt_length_iff_exists.mpr
    rcases List.exists_mem_of_ne_nil _ hw with ⟨x, hx⟩
    rcases List.mem_filter.mp hx with ⟨hx1, hx2⟩
    exact ⟨x, hx1, by simp [hx2]⟩

/-! ### Graph-builder lemmas -/

theorem hasKey_iff {g : Graph} {n : String} : hasKey g n = true ↔ n ∈ keysOf g := by
  unfold hasKey
  rw [List.find?_isSome]
  constructor
  · rintro ⟨p, hp, hpn⟩
    exact List.mem_map.mpr ⟨p, hp, by simpa using hpn⟩
  · intro h
    rcases List.mem_map.mp h with ⟨p, hp, rfl⟩
    exact ⟨p, hp, by simp⟩

theorem keysOf_foldIf {β : Type} (f : Graph → β → Graph)
    (hf : ∀ g b, keysOf (f g b) = keysOf g) :
    ∀ (l : List β) (g : Graph), keysOf (l.foldl f g) = keysOf g := by
  intro l
  induction l with
  | nil => intro g; rfl
  | cons b rest ih =>
    intro g
    rw [List.foldl_cons, ih, hf]

theorem keysOf_addWaits (g : Graph) (agents : List SwarmAgent) :
    keysOf (addWaits g agents) = keysOf g := by
  apply keysOf_foldIf
  intro g a
  apply keysOf_foldIf
  intro g dep
  by_cases h : hasKey g dep = true
  · rw [if_pos h, keysOf_addDep]
  · rw [if_neg h]

theorem keysOf_addReports (g : Graph) (agents : List SwarmAgent) :
    keysOf (addReports g agents) = keysOf g := by
  apply keysOf_foldIf
  intro g a
  apply keysOf_foldIf
  intro g tgt
  by_cases h : hasKey g tgt = true
  · rw [if_pos h, keysOf_addDep]
  · rw [if_neg h]

theorem keysOf_addChain : ∀ (ord : List String) (g : Graph),
    keysOf (addChain g ord) = keysOf g := by
  intro ord
  induction ord with
  | nil => intro g; rfl
  | cons a rest ih =>
    intro g
    cases rest with
    | nil => rfl
    | cons b rest2 =>
      rw [show addChain g (a :: b :: rest2) = addChain (addDep g b a) (b :: rest2) from rfl]
      rw [ih (addDep g b a), keysOf_addDep]

theorem keysOf_initGraph (agents : List SwarmAgent) :
    keysOf (initGraph agents) = agents.map (·.name) := by
  simp [keysOf, initGraph]

theorem keysOf_baseGraph (d : SwarmDefinition) : keysOf (baseGraph d) = agentOrder d := by
  unfold baseGraph
  rw [keysOf_addReports, keysOf_addWaits, keysOf_initGraph]
  rfl

theorem keysOf_buildDependencyGraph (d : SwarmDefinition) :
    keysOf (buildDependencyGraph d) = agentOrder d := by
  show keysOf (if (d.mode == "pipeline" || d.mode == "sequential")
      && !hasExplicitDeps (baseGraph d) then
    addChain (baseGraph d) (agentOrder d) else baseGraph d) = agentOrder d
  by_cases hc : ((d.mode == "pipeline" || d.mode == "sequential")
      && !hasExplicitDeps (baseGraph d)) = true
  · rw [if_pos hc, keysOf_addChain, keysOf_baseGraph]
  · rw [if_neg hc, keysOf_baseGraph]

theorem depsOf_initGraph (agents : List SwarmAgent) (n : String) :
    depsOf (initGraph agents) n = [] := by
  rcases hf : (initGraph agents).find? (fun p => p.1 == n) with _ | p
  · simp [depsOf, hf]
  · have hp := List.mem_of_find?_eq_some hf
    rcases List.mem_map.mp hp with ⟨a, _, he⟩
    simp [depsOf, hf, ← he]

/-- No node depends on itself. -/
def SelfFree (g : Graph) : Prop := ∀ n, n ∉ depsOf g n

theorem selfFree_addDep {g : Graph} (h : SelfFree g) {k v : String} (hne : v ≠ k) :
    SelfFree (addDep g k v) := by
  intro n hn
  rcases mem_of_mem_addDep hn with h1 | ⟨h2, h3⟩
  · exact h n h1
  · apply hne
    rw [← h2, h3]

theorem selfFree_addWaits (agents : List SwarmAgent)
    (hself : ∀ a ∈ agents, a.name ∉ a.waitsFor) :
    ∀ (g : Graph), SelfFree g → SelfFree (addWaits g agents) := by
  induction agents with
  | nil =>
    intro g h
    exact h
  | cons a rest ih =>
    intro g h
    have hinner : ∀ (ws : List String) (g : Graph), (∀ w ∈ ws, w ≠ a.name) → SelfFree g →
        SelfFree (ws.foldl
          (fun g dep => if hasKey g dep then addDep g a.name dep else g) g) := by
      intro ws
      induction ws with
      | nil =>
        intro g _ hg
        exact hg
      | cons w rest2 ih2 =>
        intro g hws hg
        rw [List.foldl_cons]
        apply ih2 _ (fun x hx => hws x (List.mem_cons_of_mem _ hx))
        by_cases hk : hasKey g w = true
        · rw [if_pos hk]
          exact selfFree_addDep hg (hws w (List.mem_cons_self _ _))
        · rw [if_neg hk]
          exact hg
    show SelfFree (addWaits (a.waitsFor.foldl
      (fun g dep => if hasKey g dep then addDep g a.name dep else g) g) rest)
    apply ih (fun a2 ha2 => hself a2 (List.mem_cons_of_mem _ ha2))
    apply hinner a.waitsFor g _ h
    intro w hw he
    exact (hself a (List.mem_cons_self _ _)) (he ▸ hw)

theorem selfFree_addReports (agents : List SwarmAgent)
    (hself : ∀ a ∈ agents, a.name ∉ a.reportsTo) :
    ∀ (g : Graph), SelfFree g → SelfFree (addReports g agents) := by
  induction agents with
  | nil =>
    intro g h
    exact h
  | cons a rest ih =>
    intro g h
    have hinner : ∀ (ts : List String) (g : Graph), (∀ t ∈ ts, t ≠ a.name) → SelfFree g →
        SelfFree (ts.foldl
          (fun g tgt => if hasKey g tgt then addDep g tgt a.name else g) g) := by
      intro ts
      induction ts with
      | nil =>
        intro g _ hg
        exact hg
      | cons t rest2 ih2 =>
        intro g hts hg
        rw [List.foldl_cons]
        apply ih2 _ (fun x hx => hts x (List.mem_cons_of_mem _ hx))
        by_cases hk : hasKey g t = true
        · rw [if_pos hk]
          exact selfFree_addDep hg (Ne.symm (hts t (List.mem_cons_self _ _)))
        · rw [if_neg hk]
          exact hg
    show SelfFree (addReports (a.reportsTo.foldl
      (fun g tgt => if hasKey g tgt then addDep g tgt a.name else g) g) rest)
    apply ih (fun a2 ha2 => hself a2 (List.mem_cons_of_mem _ ha2))
    apply hinner a.reportsTo g _ h
    intro t ht he
    exact (hself a (List.mem_cons_self _ _)) (he ▸ ht)

theorem selfFree_addChain : ∀ (ord : List String) (g : Graph), ord.Nodup → SelfFree g →
    SelfFree (addChain g ord) := by
  intro ord
  induction ord with
  | nil =>
    intro g _ h
    exact h
  | cons a rest ih =>
    intro g hnd h
    cases rest with
    | nil => exact h
    | cons b rest2 =>
      have hab : a ≠ b := by
        intro he
        exact (List.nodup_cons.mp hnd).1 (he ▸ List.mem_cons_self b rest2)
      exact ih (addDep g b a) (List.nodup_cons.mp hnd).2 (selfFree_addDep h hab)

theorem selfFree_initGraph (agents : List SwarmAgent) : SelfFree (initGraph agents) := by
  intro n hn
  rw [depsOf_initGraph] at hn
  cases hn

/-- Dependency sets only grow along the builder's folds. -/
theorem foldl_mono {β : Type} (f : Graph → β → Graph)
    (hf : ∀ g b n dp, dp ∈ depsOf g n → dp ∈ depsOf (f g b) n) :
    ∀ (l : List β) (g : Graph) (n dp : String),
      dp ∈ depsOf g n → dp ∈ depsOf (l.foldl f g) n := by
  intro l
  induction l with
  | nil =>
    intro g n dp h
    exact h
  | cons b rest ih =>
    intro g n dp h
    exact ih _ _ _ (hf g b n dp h)

theorem addWaits_mono (agents : List SwarmAgent) (g : Graph) (n dp : String)
    (h : dp ∈ depsOf g n) : dp ∈ depsOf (addWaits g agents) n := by
  apply foldl_mono _ _ agents g n dp h
  intro g a n dp h
  apply foldl_mono _ _ a.waitsFor g n dp h
  intro g dep n dp h
  by_cases hk : hasKey g dep = true
  · rw [if_pos hk]
    exact mem_depsOf_addDep h _ _
  · rw [if_neg hk]
    exact h

theorem addReports_mono (agents : List SwarmAgent) (g : Graph) (n dp : String)
    (h : dp ∈ depsOf g n) : dp ∈ depsOf (addReports g agents) n := by
  apply foldl_mono _ _ agents g n dp h
  intro g a n dp h
  apply foldl_mono _ _ a.reportsTo g n dp h
  intro g tgt n dp h
  by_cases hk : hasKey g tgt = true
  · rw [if_pos hk]
    exact mem_depsOf_addDep h _ _
  · rw [if_neg hk]
    exact h

theorem addChain_mono : ∀ (ord : List String) (g : Graph) (n dp : String),
    dp ∈ depsOf g n → dp ∈ depsOf (addChain g ord) n := by
  intro ord
  induction ord with
  | nil =>
    intro g n dp h
    exact h
  | cons a rest ih =>
    intro g n dp h
    cases rest with
    | nil => exact h
    | cons b rest2 => exact ih _ _ _ (mem_depsOf_addDep h b a)

/-- Every dependency mentions a key of the graph. -/
def DepsClosed (g : Graph) : Prop := ∀ n d, d ∈ depsOf g n → d ∈ keysOf g

theorem depsClosed_addDep {g : Graph} (h : DepsClosed g) {k v : String}
    (hv : v ∈ keysOf g) : DepsClosed (addDep g k v) := by
  intro n d hd
  rw [keysOf_addDep]
  rcases mem_of_mem_addDep hd with h1 | ⟨h2, _⟩
  · exact h n d h1
  · exact h2 ▸ hv

theorem depsClosed_addWaits (agents : List SwarmAgent) :
    ∀ (g : Graph), DepsClosed g → DepsClosed (addWaits g agents) := by
  induction agents with
  | nil =>
    intro g h
    exact h
  | cons a rest ih =>
    intro g h
    have hinner : ∀ (ws : List String) (g : Graph), DepsClosed g →
        DepsClosed (ws.foldl
          (fun g dep => if hasKey g dep then addDep g a.name dep else g) g) := by
      intro ws
      induction ws with
      | nil =>
        intro g hg
        exact hg
      | cons w rest2 ih2 =>
        intro g hg
        rw [List.foldl_cons]
        apply ih2
        by_cases hk : hasKey g w = true
        · rw [if_pos hk]
          exact depsClosed_addDep hg (hasKey_iff.mp hk)
        · rw [if_neg hk]
          exact hg
    show DepsClosed (addWaits (a.waitsFor.foldl
      (fun g dep => if hasKey g dep then addDep g a.name dep else g) g) rest)
    exact ih _ (hinner a.waitsFor g h)

theorem depsClosed_addReports (agents : List SwarmAgent) :
    ∀ (g : Graph), (∀ a ∈ agents, a.name ∈ keysOf g) → DepsClosed g →
      DepsClosed (addReports g agents) := by
  induction agents with
  | nil =>
    intro g _ h
    exact h
  | cons a rest ih =>
    intro g hnames h
    have hinner : ∀ (ts : List String) (g : Graph), a.name ∈ keysOf g → DepsClosed g →
        keysOf (ts.foldl
          (fun g tgt => if hasKey g tgt then addDep g tgt a.name else g) g) = keysOf g ∧
        DepsClosed (ts.foldl
          (fun g tgt => if hasKey g tgt then addDep g tgt a.name else g) g) := by
      intro ts
      induction ts with
      | nil =>
        intro g _ hg
        exact ⟨rfl, hg⟩
      | cons t rest2 ih2 =>
        intro g hname hg
        rw [List.foldl_cons]
        by_cases hk : hasKey g t = true
        · rw [if_pos hk]
          rcases ih2 (addDep g t a.name) (by rw [keysOf_addDep]; exact hname)
            (depsClosed_addDep hg hname) with ⟨hk2, hc2⟩
          exact ⟨by rw [hk2, keysOf_addDep], hc2⟩
        · rw [if_neg hk]
          exact ih2 g hname hg
    show DepsClosed (addReports (a.reportsTo.foldl
      (fun g tgt => if hasKey g tgt then addDep g tgt a.name else g) g) rest)
    rcases hinner a.reportsTo g (hnames a (List.mem_cons_self _ _)) h with ⟨hk2, hc2⟩
    apply ih _ _ hc2
    intro a2 ha2
    rw [hk2]
    exact hnames a2 (List.mem_cons_of_mem _ ha2)

theorem depsClosed_addChain : ∀ (ord : List String) (g : Graph),
    (∀ x ∈ ord, x ∈ keysOf g) → DepsClosed g → DepsClosed (addChain g ord) := by
  intro ord
  induction ord with
  | nil =>
    intro g _ h
    exact h
  | cons a rest ih =>
    intro g hsub h
    cases rest with
    | nil => exact h
    | cons b rest2 =>
      have h2 : DepsClosed (addDep g b a) :=
        depsClosed_addDep h (hsub a (List.mem_cons_self _ _))
      have hsub2 : ∀ x ∈ b :: rest2, x ∈ keysOf (addDep g b a) := by
        intro x hx
        rw [keysOf_addDep]
        exact hsub x (List.mem_cons_of_mem _ hx)
      exact ih _ hsub2 h2

theorem depsClosed_baseGraph (d : SwarmDefinition) : DepsClosed (baseGraph d) := by
  unfold baseGraph
  apply depsClosed_addReports
  · intro a ha
    rw [keysOf_addWaits, keysOf_initGraph]
    exact List.mem_map.mpr ⟨a, ha, rfl⟩
  · apply depsClosed_addWaits
    intro n dp hdp
    rw [depsOf_initGraph] at hdp
    cases hdp

theorem depsClosed_buildDependencyGraph (d : SwarmDefinition) :
    DepsClosed (buildDependencyGraph d) := by
  show DepsClosed (if (d.mode == "pipeline" || d.mode == "sequential")
      && !hasExplicitDeps (baseGraph d) then
    addChain (baseGraph d) (agentOrder d) else baseGraph d)
  by_cases hc : ((d.mode == "pipeline" || d.mode == "sequential")
      && !hasExplicitDeps (baseGraph d)) = true
  · rw [if_pos hc]
    apply depsClosed_addChain
    · intro x hx
      rw [keysOf_baseGraph]
      exact hx
    · exact depsClosed_baseGraph d
  · rw [if_neg hc]
    exact depsClosed_baseGraph d

/-- The `waits_for` pass records an edge for every known dependency name. -/
theorem waits_inner_adds (aname : String) : ∀ (ws : List String) (g : Graph),
    aname ∈ keysOf g → ∀ w ∈ ws, w ∈ keysOf g →
    w ∈ depsOf (ws.foldl
      (fun g dep => if hasKey g dep then addDep g aname dep else g) g) aname := by
  intro ws
  induction ws with
  | nil =>
    intro g _ w hw
    cases hw
  | cons w2 rest ih =>
    intro g hname w hw hwk
    rw [List.foldl_cons]
    rcases List.mem_cons.mp hw with rfl | hw2
    · rw [if_pos (hasKey_iff.mpr hwk)]
      apply foldl_mono _ ?mono rest _ _ _ (mem_addDep_self hname w)
      case mono =>
        intro g dep n dp h
        by_cases hk : hasKey g dep = true
        · rw [if_pos hk]
          exact mem_depsOf_addDep h _ _
        · rw [if_neg hk]
          exact h
    · by_cases hk : hasKey g w2 = true
      · rw [if_pos hk]
        exact ih _ (by rw [keysOf_addDep]; exact hname) w hw2
          (by rw [keysOf_addDep]; exact hwk)
      · rw [if_neg hk]
        exact ih _ hname w hw2 hwk

theorem addWaits_adds (agents : List SwarmAgent) :
    ∀ (g : Graph), ∀ a ∈ agents, a.name ∈ keysOf g → ∀ w ∈ a.waitsFor, w ∈ keysOf g →
      w ∈ depsOf (addWaits g agents) a.name := by
  induction agents with
  | nil =>
    intro g a ha
    cases ha
  | cons a2 rest ih =>
    intro g a ha hname w hw hwk
    rcases List.mem_cons.mp ha with rfl | ha2
    · show w ∈ depsOf (addWaits (a.waitsFor.foldl
        (fun g dep => if hasKey g dep then addDep g a.name dep else g) g) rest) a.name
      exact addWaits_mono rest _ _ _ (waits_inner_adds a.name a.waitsFor g hname w hw hwk)
    · show w ∈ depsOf (addWaits (a2.waitsFor.foldl
        (fun g dep => if hasKey g dep then addDep g a2.name dep else g) g) rest) a.name
      have hkeys : keysOf (a2.waitsFor.foldl
          (fun g dep => if hasKey g dep then addDep g a2.name dep else g) g) = keysOf g :=
        keysOf_foldIf _ (fun g dep => by
          by_cases hk : hasKey g dep = true
          · rw [if_pos hk, keysOf_addDep]
          · rw [if_neg hk]) a2.waitsFor g
      exact ih _ a ha2 (by rw [hkeys]; exact hname) w hw (by rw [hkeys]; exact hwk)

/-- The `reports_to` pass records the inverse edge for every known target. -/
theorem reports_inner_adds (aname : String) : ∀ (ts : List String) (g : Graph),
    (keysOf g).Nodup → ∀ t ∈ ts, t ∈ keysOf g →
    aname ∈ depsOf (ts.foldl
      (fun g tgt => if hasKey g tgt then addDep g tgt aname else g) g) t := by
  intro ts
  induction ts with
  | nil =>
    intro g _ t ht
    cases ht
  | cons t2 rest ih =>
    intro g hnd t ht htk
    rw [List.foldl_cons]
    rcases List.mem_cons.mp ht with rfl | ht2
    · rw [if_pos (hasKey_iff.mpr htk)]
      apply foldl_mono _ ?mono2 rest _ _ _ (mem_addDep_self htk aname)
      case mono2 =>
        intro g tgt n dp h
        by_cases hk : hasKey g tgt = true
        · rw [if_pos hk]
          exact mem_depsOf_addDep h _ _
        · rw [if_neg hk]
          exact h
    · by_cases hk : hasKey g t2 = true
      · rw [if_pos hk]
        exact ih _ (by rw [keysOf_addDep]; exact hnd) t ht2
          (by rw [keysOf_addDep]; exact htk)
      · rw [if_neg hk]
        exact ih _ hnd t ht2 htk

theorem addReports_adds (agents : List SwarmAgent) :
    ∀ (g : Graph), (keysOf g).Nodup → ∀ a ∈ agents, ∀ t ∈ a.reportsTo, t ∈ keysOf g →
      a.name ∈ depsOf (addReports g agents) t := by
  induction agents with
  | nil =>
    intro g _ a ha
    cases ha
  | cons a2 rest ih =>
    intro g hnd a ha t ht htk
    rcases List.mem_cons.mp ha with rfl | ha2
    · show a.name ∈ depsOf (addReports (a.reportsTo.foldl
        (fun g tgt => if hasKey g tgt then addDep g tgt a.name else g) g) rest) t
      exact addReports_mono rest _ _ _ (reports_inner_adds a.name a.reportsTo g hnd t ht htk)
    · show a.name ∈ depsOf (addReports (a2.reportsTo.foldl
        (fun g tgt => if hasKey g tgt then addDep g tgt a2.name else g) g) rest) t
      have hkeys : keysOf (a2.reportsTo.foldl
          (fun g tgt => if hasKey g tgt then addDep g tgt a2.name else g) g) = keysOf g :=
        keysOf_foldIf _ (fun g tgt => by
          by_cases hk : hasKey g tgt = true
          · rw [if_pos hk, keysOf_addDep]
          · rw [if_neg hk]) a2.reportsTo g
      exact ih _ (by rw [hkeys]; exact hnd) a ha2 t ht (by rw [hkeys]; exact htk)

theorem buildDependencyGraph_eq (d : SwarmDefinition) :
    buildDependencyGraph d = if (d.mode == "pipeline" || d.mode == "sequential")
        && !hasExplicitDeps (baseGraph d) then
      addChain (baseGraph d) (agentOrder d) else baseGraph d := rfl

/-- The chain loop leaves any node that is not a chain target untouched. -/
theorem depsOf_addChain_untouched : ∀ (ord : List String) (g : Graph) (n : String),
    n ∉ ord.tail → depsOf (addChain g ord) n = depsOf g n := by
  intro ord
  induction ord with
  | nil =>
    intro g n _
    rfl
  | cons a rest ih =>
    intro g n hn
    cases rest with
    | nil => rfl
    | cons b rest2 =>
      have hnb : n ≠ b := fun he => hn (he ▸ List.mem_cons_self b rest2)
      have hnt : n ∉ (b :: rest2).tail := fun hm => hn (List.mem_cons_of_mem _ hm)
      rw [show addChain g (a :: b :: rest2) = addChain (addDep g b a) (b :: rest2) from rfl]
      rw [ih (addDep g b a) n hnt, depsOf_addDep_other hnb]

/-- The chain loop adds, for every consecutive pair of the order, exactly the
edge `next depends on prev`. -/
theorem depsOf_addChain_pair : ∀ (ord : List String) (g : Graph),
    ord.Nodup → (∀ x ∈ ord, x ∈ keysOf g) →
    ∀ pr ∈ ord.zip ord.tail,
      depsOf (addChain g ord) pr.2 =
        (if (depsOf g pr.2).contains pr.1 then depsOf g pr.2
         else depsOf g pr.2 ++ [pr.1]) := by
  intro ord
  induction ord with
  | nil =>
    intro g _ _ pr hpr
    cases hpr
  | cons a rest ih =>
    intro g hnd hkeys pr hpr
    cases rest with
    | nil => cases hpr
    | cons b rest2 =>
      have hnd2 : (b :: rest2).Nodup := (List.nodup_cons.mp hnd).2
      have hbr2 : b ∉ rest2 := (List.nodup_cons.mp hnd2).1
      have hbk : b ∈ keysOf g := hkeys b (List.mem_cons_of_mem _ (List.mem_cons_self _ _))
      rw [show addChain g (a :: b :: rest2) = addChain (addDep g b a) (b :: rest2) from rfl]
      obtain ⟨x, y⟩ := pr
      rcases List.mem_cons.mp hpr with he | hpr2
      · rw [Prod.mk.injEq] at he
        obtain ⟨hx, hy⟩ := he
        subst hx
        subst hy
        show depsOf (addChain (addDep g y x) (y :: rest2)) y =
          if (depsOf g y).contains x then depsOf g y else depsOf g y ++ [x]
        rw [depsOf_addChain_untouched (y :: rest2) (addDep g y x) y hbr2]
        rw [depsOf_addDep_self hbk x]
      · have hzip := List.of_mem_zip hpr2
        have hy2 : y ∈ rest2 := hzip.2
        have hyb : y ≠ b := fun he2 => hbr2 (he2 ▸ hy2)
        have hsub2 : ∀ x2 ∈ b :: rest2, x2 ∈ keysOf (addDep g b a) := by
          intro x2 hx2
          rw [keysOf_addDep]
          exact hkeys x2 (List.mem_cons_of_mem _ hx2)
        have hres := ih (addDep g b a) hnd2 hsub2 (x, y) hpr2
        dsimp only at hres ⊢
        rw [hres, depsOf_addDep_other hyb]

theorem hasExplicitDeps_false_iff {g : Graph} :
    hasExplicitDeps g = false ↔ ∀ p ∈ g, p.2 = [] := by
  constructor
  · intro h p hp
    by_contra hne
    have h2 : hasExplicitDeps g = true :=
      List.any_eq_true.mpr ⟨p, hp, by simpa using List.length_pos.mpr hne⟩
    rw [h] at h2
    cases h2
  · intro h
    cases hb : hasExplicitDeps g
    · rfl
    · rcases List.any_eq_true.mp hb with ⟨p, hp, hlen⟩
      rw [h p hp] at hlen
      simp at hlen

theorem depsOf_eq_nil_of_edge_free {g : Graph} (h : ∀ p ∈ g, p.2 = []) (n : String) :
    depsOf g n = [] := by
  rcases hf : g.find? (fun p => p.1 == n) with _ | p
  · simp [depsOf, hf]
  · simp [depsOf, hf, h p (List.mem_of_find?_eq_some hf)]

/-! ### State-tracker record lemmas -/

theorem getRecord_set_self (m : List (String × AgentState)) (k : String) (v : AgentState) :
    getRecord (setRecord m k v) k = some v := by
  unfold setRecord getRecord
  by_cases ha : m.any (fun p => p.1 == k) = true
  · rw [if_pos ha]
    rw [find?_key_map _ _ (fun p => by by_cases hp : p.1 = k <;> simp [hp])]
    rcases List.any_eq_true.mp ha with ⟨p, hp, hpk⟩
    rcases hf : m.find? (fun p => p.1 == k) with _ | q
    · exfalso
      have := List.find?_eq_none.mp hf p hp
      exact this hpk
    · have hqk : q.1 = k := by
        have h2 := List.find?_some hf
        simpa using h2
      simp [hf, hqk]
  · rw [if_neg ha]
    rw [List.find?_append]
    have hf : m.find? (fun p => p.1 == k) = none := by
      apply List.find?_eq_none.mpr
      intro p hp hpk
      exact ha (List.any_eq_true.mpr ⟨p, hp, hpk⟩)
    simp [hf]

theorem getRecord_set_other (m : List (String × AgentState)) {k k2 : String}
    (h : k2 ≠ k) (v : AgentState) :
    getRecord (setRecord m k v) k2 = getRecord m k2 := by
  unfold setRecord getRecord
  by_cases ha : m.any (fun p => p.1 == k) = true
  · rw [if_pos ha]
    rw [find?_key_map _ _ (fun p => by by_cases hp : p.1 = k <;> simp [hp])]
    rcases hf : m.find? (fun p => p.1 == k2) with _ | q
    · simp [hf]
    · have hqk : q.1 = k2 := by
        have h2 := List.find?_some hf
        simpa using h2
      have hne : q.1 ≠ k := by
        rw [hqk]
        exact h
      simp [hf, hne]
  · rw [if_neg ha]
    rw [List.find?_append]
    rcases hf : m.find? (fun p => p.1 == k2) with _ | q
    · have hne : (k ≠ k2) := Ne.symm h
      simp [hf, hne]
    · simp [hf]

theorem init_fold_getRecord : ∀ (names : List String) (m : List (String × AgentState))
    (n : String),
    getRecord (names.foldl (fun m n2 => setRecord m n2 (StateTracker.pendingAgent n2)) m) n
      = if n ∈ names then some (StateTracker.pendingAgent n) else getRecord m n := by
  intro names
  induction names with
  | nil =>
    intro m n
    simp
  | cons x rest ih =>
    intro m n
    rw [List.foldl_cons, ih]
    by_cases hn : n ∈ rest
    · rw [if_pos hn, if_pos (List.mem_cons_of_mem _ hn)]
    · rw [if_neg hn]
      by_cases hnx : n = x
      · subst hnx
        rw [getRecord_set_self, if_pos (List.mem_cons_self _ _)]
      · rw [getRecord_set_other _ hnx, if_neg (by simp [hnx, hn])]

/-! ### Concrete fixtures from the specification's examples -/

/-- Agents `A`,`B`,`C` with `B.waitsFor=[A]`, `C.waitsFor=[B]`, as a built
graph. -/
def exChainABC : Graph := [("A", []), ("B", ["A"]), ("C", ["B"])]

/-- Agents `M`,`N` each depending on the other. -/
def exMutualMN : Graph := [("M", ["N"]), ("N", ["M"])]

/-- Mode `sequential`, agents `[P,Q,R]`, no explicit or inverse edges. -/
def exSeqPQR : SwarmDefinition :=
  { agents := [{ name := "P" }, { name := "Q" }, { name := "R" }], mode := "sequential" }

/-- The same three agents in a fully parallel mode. -/
def exParPQR : SwarmDefinition :=
  { agents := [{ name := "P" }, { name := "Q" }, { name := "R" }], mode := "parallel" }

/-- Agents `X`,`Y` with `X.reportsTo=[Y]`. -/
def exReportsXY : SwarmDefinition :=
  { agents := [{ name := "X", reportsTo := ["Y"] }, { name := "Y" }], mode := "parallel" }

/-- A single agent listing its own name in `waits_for`. -/
def exSelfDep : SwarmDefinition :=
  { agents := [{ name := "A", waitsFor := ["A"] }], mode := "parallel" }

/-- An agent whose `waits_for` names an unknown agent `Z`. -/
def exUnknownDep : SwarmDefinition :=
  { agents := [{ name := "A", waitsFor := ["Z"] }, { name := "B" }], mode := "parallel" }

theorem mergeSort_singleton_eq (a : String) (le : String → String → Bool) :
    [a].mergeSort le = [a] :=
  List.perm_singleton.mp (List.mergeSort_perm [a] le)

/-- Wave list of the `X reportsTo Y` example graph. -/
theorem waves_graphXY :
    buildExecutionWaves [("X", []), ("Y", ["X"])] = some [["X"], ["Y"]] := by
  show buildWavesAux [("X", []), ("Y", ["X"])] [] ["X", "Y"] = some [["X"], ["Y"]]
  rw [buildWavesAux_step (by decide) (by decide)]
  rw [show ["X", "Y"].filter (readyFor [("X", []), ("Y", ["X"])] []) = ["X"] from rfl]
  rw [show ["X", "Y"].filter
    (fun n => !readyFor [("X", []), ("Y", ["X"])] [] n) = ["Y"] from rfl]
  rw [mergeSort_singleton_eq]
  rw [show ([] : List String) ++ ["X"] = ["X"] from rfl]
  rw [buildWavesAux_step (by decide) (by decide)]
  rw [show ["Y"].filter (readyFor [("X", []), ("Y", ["X"])] ["X"]) = ["Y"] from rfl]
  rw [show ["Y"].filter
    (fun n => !readyFor [("X", []), ("Y", ["X"])] ["X"] n) = ([] : List String) from rfl]
  rw [mergeSort_singleton_eq]
  rw [buildWavesAux_nil]
  rfl

/-- Wave list of the sequential `P,Q,R` chain graph. -/
theorem waves_graphPQR :
    buildExecutionWaves [("P", []), ("Q", ["P"]), ("R", ["Q"])]
      = some [["P"], ["Q"], ["R"]] := by
  show buildWavesAux [("P", []), ("Q", ["P"]), ("R", ["Q"])] [] ["P", "Q", "R"]
    = some [["P"], ["Q"], ["R"]]
  rw [buildWavesAux_step (by decide) (by decide)]
  rw [show ["P", "Q", "R"].filter
    (readyFor [("P", []), ("Q", ["P"]), ("R", ["Q"])] []) = ["P"] from rfl]
  rw [show ["P", "Q", "R"].filter
    (fun n => !readyFor [("P", []), ("Q", ["P"]), ("R", ["Q"])] [] n)
    = ["Q", "R"] from rfl]
  rw [mergeSort_singleton_eq]
  rw [show ([] : List String) ++ ["P"] = ["P"] from rfl]
  rw [buildWavesAux_step (by decide) (by decide)]
  rw [show ["Q", "R"].filter
    (readyFor [("P", []), ("Q", ["P"]), ("R", ["Q"])] ["P"]) = ["Q"] from rfl]
  rw [show ["Q", "R"].filter
    (fun n => !readyFor [("P", []), ("Q", ["P"]), ("R", ["Q"])] ["P"] n)
    = ["R"] from rfl]
  rw [mergeSort_singleton_eq]
  rw [show ["P"] ++ ["Q"] = ["P", "Q"] from rfl]
  rw [buildWavesAux_step (by decide) (by decide)]
  rw [show ["R"].filter
    (readyFor [("P", []), ("Q", ["P"]), ("R", ["Q"])] ["P", "Q"]) = ["R"] from rfl]
  rw [show ["R"].filter
    (fun n => !readyFor [("P", []), ("Q", ["P"]), ("R", ["Q"])] ["P", "Q"] n)
    = ([] : List String) from rfl]
  rw [mergeSort_singleton_eq]
  rw [buildWavesAux_nil]
  rfl

/-- Wave list of the `A,B,C` chain graph. -/
theorem waves_graphABC :
    buildExecutionWaves exChainABC = some [["A"], ["B"], ["C"]] := by
  show buildWavesAux exChainABC [] ["A", "B", "C"] = some [["A"], ["B"], ["C"]]
  rw [buildWavesAux_step (by decide) (by decide)]
  rw [show ["A", "B", "C"].filter (readyFor exChainABC []) = ["A"] from rfl]
  rw [show ["A", "B", "C"].filter
    (fun n => !readyFor exChainABC [] n) = ["B", "C"] from rfl]
  rw [mergeSort_singleton_eq]
  rw [show ([] : List String) ++ ["A"] = ["A"] from rfl]
  rw [buildWavesAux_step (by decide) (by decide)]
  rw [show ["B", "C"].filter (readyFor exChainABC ["A"]) = ["B"] from rfl]
  rw [show ["B", "C"].filter
    (fun n => !readyFor exChainABC ["A"] n) = ["C"] from rfl]
  rw [mergeSort_singleton_eq]
  rw [show ["A"] ++ ["B"] = ["A", "B"] from rfl]
  rw [buildWavesAux_step (by decide) (by decide)]
  rw [show ["C"].filter (readyFor exChainABC ["A", "B"]) = ["C"] from rfl]
  rw [show ["C"].filter
    (fun n => !readyFor exChainABC ["A", "B"] n) = ([] : List String) from rfl]
  rw [mergeSort_singleton_eq]
  rw [buildWavesAux_nil]
  rfl

/-! ### Claim theorems -/

/-- C1: for every well-formed acyclic dependency graph, `buildExecutionWaves`
returns a sequence of non-empty, pairwise-disjoint waves whose union contains
every agent name of the graph exactly once, and every dependency of an agent
in wave `k` lies in a wave of strictly smaller index. -/
theorem C1_waves_cover_and_order (g : Graph) (hwf : WFGraph g) (hac : Acyclic g) :
    ∃ ws, buildExecutionWaves g = some ws ∧
      (∀ w ∈ ws, w ≠ []) ∧
      List.Pairwise List.Disjoint ws ∧
      ws.flatten.Nodup ∧
      (∀ a, a ∈ ws.flatten ↔ a ∈ keysOf g) ∧
      (∀ k a, a ∈ ws.getD k [] → ∀ d ∈ depsOf g a, ∃ j, j < k ∧ d ∈ ws.getD j []) := by
  obtain ⟨ws, h1, h2, h3, h4, h5⟩ := buildExecutionWaves_some g hwf hac
  exact ⟨ws, h1, h2, (List.nodup_flatten.mp h3).2, h3, h4, h5⟩

theorem C1_waves_cover_and_order_witness :
    WFGraph exChainABC ∧ Acyclic exChainABC ∧
    buildExecutionWaves exChainABC = some [["A"], ["B"], ["C"]] ∧
    (∃ ws, buildExecutionWaves exChainABC = some ws ∧
      (∀ w ∈ ws, w ≠ []) ∧
      List.Pairwise List.Disjoint ws ∧
      ws.flatten.Nodup ∧
      (∀ a, a ∈ ws.flatten ↔ a ∈ keysOf exChainABC) ∧
      (∀ k a, a ∈ ws.getD k [] → ∀ d ∈ depsOf exChainABC a,
        ∃ j, j < k ∧ d ∈ ws.getD j [])) := by
  have hwf : WFGraph exChainABC := by decide
  have hac : Acyclic exChainABC :=
    acyclic_of_isTopoOrder (show isTopoOrder exChainABC ["A", "B", "C"] = true by decide)
  exact ⟨hwf, hac, waves_graphABC, C1_waves_cover_and_order exChainABC hwf hac⟩

/-- C2: `detectCycles` returns `null` exactly for acyclic (well-formed)
graphs, and any non-null result is exactly the set of keys left unremoved by
Kahn's removal order; the two mutually-dependent agents `M`,`N` are returned
as exactly that pair (see the witness). -/
theorem C2_detectCycles_iff_acyclic (g : Graph) (hwf : WFGraph g) :
    (detectCycles g = none ↔ Acyclic g) ∧
    (∀ l, detectCycles g = some l →
      l = (keysOf g).filter (fun k => !(kahnSorted g).contains k)) := by
  refine ⟨detectCycles_none_iff hwf, ?_⟩
  intro l hl
  unfold detectCycles at hl
  by_cases hlt : (kahnSorted g).length < g.length
  · rw [if_pos hlt] at hl
    exact (Option.some.injEq _ _).mp hl |>.symm
  · rw [if_neg hlt] at hl
    exact Option.noConfusion hl

theorem C2_detectCycles_iff_acyclic_witness :
    WFGraph exMutualMN ∧ detectCycles exMutualMN = some ["M", "N"] ∧
    ¬ Acyclic exMutualMN ∧ (detectCycles exChainABC = none → Acyclic exChainABC) := by
  have hwf : WFGraph exMutualMN := by decide
  have hsome : detectCycles exMutualMN = some ["M", "N"] := by decide
  refine ⟨hwf, hsome, ?_, ?_⟩
  · intro hac
    have h := (C2_detectCycles_iff_acyclic exMutualMN hwf).1.mpr hac
    rw [hsome] at h
    exact Option.noConfusion h
  · intro hnone
    exact (C2_detectCycles_iff_acyclic exChainABC (by decide)).1.mp hnone

/-- C3 as stated is false: an agent that lists its own name in `waits_for`
produces a self-dependency edge (here a definition with distinct agent names
whose single agent `A` waits for `A`). -/
theorem C3_self_dep_cex :
    (agentOrder exSelfDep).Nodup ∧
    "A" ∈ depsOf (buildDependencyGraph exSelfDep) "A" := by decide

/-- C3 (amended): every agent name is a key of the built graph exactly once;
and provided no agent lists its own name in `waits_for` or `reports_to`, no
agent depends on itself. -/
theorem C3_keys_once_selfFree_amended (d : SwarmDefinition)
    (hnd : (agentOrder d).Nodup)
    (hself : ∀ a ∈ d.agents, a.name ∉ a.waitsFor ∧ a.name ∉ a.reportsTo) :
    keysOf (buildDependencyGraph d) = agentOrder d ∧
    (keysOf (buildDependencyGraph d)).Nodup ∧
    SelfFree (buildDependencyGraph d) := by
  refine ⟨keysOf_buildDependencyGraph d, ?_, ?_⟩
  · rw [keysOf_buildDependencyGraph]
    exact hnd
  · rw [buildDependencyGraph_eq]
    have hbase : SelfFree (baseGraph d) := by
      unfold baseGraph
      apply selfFree_addReports d.agents (fun a ha => (hself a ha).2)
      apply selfFree_addWaits d.agents (fun a ha => (hself a ha).1)
      exact selfFree_initGraph d.agents
    by_cases hc : ((d.mode == "pipeline" || d.mode == "sequential")
        && !hasExplicitDeps (baseGraph d)) = true
    · rw [if_pos hc]
      exact selfFree_addChain (agentOrder d) _ hnd hbase
    · rw [if_neg hc]
      exact hbase

theorem C3_keys_once_selfFree_amended_witness :
    (agentOrder exSeqPQR).Nodup ∧
    keysOf (buildDependencyGraph exSeqPQR) = agentOrder exSeqPQR ∧
    SelfFree (buildDependencyGraph exSeqPQR) := by
  have hnd : (agentOrder exSeqPQR).Nodup := by decide
  have hself : ∀ a ∈ exSeqPQR.agents, a.name ∉ a.waitsFor ∧ a.name ∉ a.reportsTo := by
    decide
  obtain ⟨h1, _, h3⟩ := C3_keys_once_selfFree_amended exSeqPQR hnd hself
  exact ⟨hnd, h1, h3⟩

/-- C5: the scheduler fails exactly when a reachable pass has nodes remaining
but schedules none of them (the source's fatal `Deadlock` throw), and for
acyclic well-formed input this never happens. -/
theorem C5_deadlock_iff_no_progress (g : Graph) (hwf : WFGraph g) :
    (buildExecutionWaves g = none ↔
      ∃ completed remaining, WavesReach g completed remaining ∧ remaining ≠ [] ∧
        remaining.filter (readyFor g completed) = []) ∧
    (Acyclic g → buildExecutionWaves g ≠ none) := by
  refine ⟨waves_none_iff_stuck g, ?_⟩
  intro hac hnone
  obtain ⟨ws, hws, _⟩ := buildExecutionWaves_some g hwf hac
  rw [hws] at hnone
  exact Option.noConfusion hnone

theorem C5_deadlock_iff_no_progress_witness :
    WFGraph exChainABC ∧ Acyclic exChainABC ∧
    buildExecutionWaves exChainABC ≠ none := by
  have hwf : WFGraph exChainABC := by decide
  have hac : Acyclic exChainABC :=
    acyclic_of_isTopoOrder (show isTopoOrder exChainABC ["A", "B", "C"] = true by decide)
  exact ⟨hwf, hac, (C5_deadlock_iff_no_progress exChainABC hwf).2 hac⟩

/-- C10: on any input, each pass of the wave loop over a non-empty remaining
set either throws the fatal no-progress error or strictly shrinks the
remaining set, and the function always either returns a wave list or
raises. -/
theorem C10_each_pass_throws_or_shrinks (g : Graph) (completed remaining : List String)
    (hne : remaining ≠ []) :
    ((remaining.filter (readyFor g completed) = [] ∧
      buildWavesAux g completed remaining = none) ∨
    (remaining.filter (readyFor g completed) ≠ [] ∧
      (remaining.filter (fun n => !readyFor g completed n)).length < remaining.length)) ∧
    ((buildExecutionWaves g).isSome ∨ (buildExecutionWaves g).isNone) := by
  refine ⟨waves_pass_dichotomy g completed remaining hne, ?_⟩
  cases buildExecutionWaves g
  · exact Or.inr rfl
  · exact Or.inl rfl

theorem C10_each_pass_throws_or_shrinks_witness :
    (["M", "N"] : List String) ≠ [] ∧
    ((["M", "N"].filter (readyFor exMutualMN []) = [] ∧
      buildWavesAux exMutualMN [] ["M", "N"] = none) ∨
    (["M", "N"].filter (readyFor exMutualMN []) ≠ [] ∧
      (["M", "N"].filter (fun n => !readyFor exMutualMN [] n)).length
        < (["M", "N"] : List String).length)) :=
  ⟨by decide, (C10_each_pass_throws_or_shrinks exMutualMN [] ["M", "N"] (by decide)).1⟩

/-- C4: the implicit linear chain is synthesized exactly when the graph of
explicit and inverse edges is edge-free and the mode is `pipeline` or
`sequential`; in that case each agent after the first depends exactly on its
predecessor in declaration order and the first has no dependency; in every
other case the built graph is exactly the explicit/inverse graph (no chain
edge is added). -/
theorem C4_chain_fallback_gating (d : SwarmDefinition) (hnd : (agentOrder d).Nodup) :
    ((d.mode ≠ "pipeline" ∧ d.mode ≠ "sequential") ∨ hasExplicitDeps (baseGraph d) = true →
      buildDependencyGraph d = baseGraph d) ∧
    ((d.mode = "pipeline" ∨ d.mode = "sequential") → hasExplicitDeps (baseGraph d) = false →
      (∀ pr ∈ (agentOrder d).zip (agentOrder d).tail,
        depsOf (buildDependencyGraph d) pr.2 = [pr.1]) ∧
      (∀ n ∈ agentOrder d, n ∉ (agentOrder d).tail →
        depsOf (buildDependencyGraph d) n = [])) := by
  constructor
  · intro h
    rw [buildDependencyGraph_eq]
    apply if_neg
    intro hc
    rcases Bool.and_eq_true_iff.mp hc with ⟨hmode, hdeps⟩
    rcases h with ⟨h1, h2⟩ | h3
    · rcases Bool.or_eq_true_iff.mp hmode with hm | hm
      · exact h1 (by simpa using hm)
      · exact h2 (by simpa using hm)
    · rw [h3] at hdeps
      simp at hdeps
  · intro hmode hfree
    have hcond : ((d.mode == "pipeline" || d.mode == "sequential")
        && !hasExplicitDeps (baseGraph d)) = true := by
      apply Bool.and_eq_true_iff.mpr
      constructor
      · apply Bool.or_eq_true_iff.mpr
        rcases hmode with hm | hm
        · exact Or.inl (by simpa using hm)
        · exact Or.inr (by simpa using hm)
      · rw [hfree]
        rfl
    have hnil : ∀ n, depsOf (baseGraph d) n = [] :=
      depsOf_eq_nil_of_edge_free (hasExplicitDeps_false_iff.mp hfree)
    have hbuild : buildDependencyGraph d = addChain (baseGraph d) (agentOrder d) := by
      rw [buildDependencyGraph_eq, if_pos hcond]
    have hkeys2 : ∀ x ∈ agentOrder d, x ∈ keysOf (baseGraph d) := by
      intro x hx
      rw [keysOf_baseGraph]
      exact hx
    constructor
    · intro pr hpr
      rw [hbuild]
      rw [depsOf_addChain_pair (agentOrder d) (baseGraph d) hnd hkeys2 pr hpr]
      rw [hnil pr.2]
      simp
    · intro n _ hnt
      rw [hbuild, depsOf_addChain_untouched (agentOrder d) (baseGraph d) n hnt, hnil n]

theorem C4_chain_fallback_gating_witness :
    (agentOrder exSeqPQR).Nodup ∧
    buildDependencyGraph exSeqPQR = [("P", []), ("Q", ["P"]), ("R", ["Q"])] ∧
    depsOf (buildDependencyGraph exSeqPQR) "Q" = ["P"] ∧
    depsOf (buildDependencyGraph exSeqPQR) "R" = ["Q"] ∧
    depsOf (buildDependencyGraph exSeqPQR) "P" = [] ∧
    buildExecutionWaves (buildDependencyGraph exSeqPQR) = some [["P"], ["Q"], ["R"]] ∧
    buildDependencyGraph exParPQR = baseGraph exParPQR := by
  have hnd : (agentOrder exSeqPQR).Nodup := by decide
  obtain ⟨_, hyes⟩ := C4_chain_fallback_gating exSeqPQR hnd
  obtain ⟨hpairs, hhead⟩ := hyes (Or.inr rfl) (by decide)
  refine ⟨hnd, by decide, ?_, ?_, ?_, ?_, ?_⟩
  · exact hpairs ("P", "Q") (by decide)
  · exact hpairs ("Q", "R") (by decide)
  · exact hhead "P" (by decide) (by decide)
  · rw [show buildDependencyGraph exSeqPQR
      = [("P", []), ("Q", ["P"]), ("R", ["Q"])] from by decide]
    exact waves_graphPQR
  · exact (C4_chain_fallback_gating exParPQR (by decide)).1
      (Or.inl ⟨by decide, by decide⟩)

/-- C8: every dependency recorded by `buildDependencyGraph` names a known
agent (unknown `waits_for` names are silently dropped), a known `waits_for`
name always becomes an edge, and the builder is total (it always returns a
graph). -/
theorem C8_unknown_waits_ignored (d : SwarmDefinition) :
    (∀ n dp, dp ∈ depsOf (buildDependencyGraph d) n → dp ∈ agentOrder d) ∧
    (∀ a ∈ d.agents, ∀ w ∈ a.waitsFor, w ∈ agentOrder d →
      w ∈ depsOf (buildDependencyGraph d) a.name) := by
  constructor
  · intro n dp hdp
    have h := depsClosed_buildDependencyGraph d n dp hdp
    rw [keysOf_buildDependencyGraph] at h
    exact h
  · intro a ha w hw hwk
    have hbase : w ∈ depsOf (baseGraph d) a.name := by
      unfold baseGraph
      apply addReports_mono
      apply addWaits_adds d.agents _ a ha ?h1 w hw ?h2
      case h1 =>
        rw [keysOf_initGraph]
        exact List.mem_map.mpr ⟨a, ha, rfl⟩
      case h2 =>
        rw [keysOf_initGraph]
        exact hwk
    rw [buildDependencyGraph_eq]
    by_cases hc : ((d.mode == "pipeline" || d.mode == "sequential")
        && !hasExplicitDeps (baseGraph d)) = true
    · rw [if_pos hc]
      exact addChain_mono _ _ _ _ hbase
    · rw [if_neg hc]
      exact hbase

theorem C8_unknown_waits_ignored_witness :
    buildDependencyGraph exUnknownDep = [("A", []), ("B", [])] ∧
    (∀ n dp, dp ∈ depsOf (buildDependencyGraph exUnknownDep) n →
      dp ∈ agentOrder exUnknownDep) ∧
    ("Z" ∉ depsOf (buildDependencyGraph exUnknownDep) "A") := by
  refine ⟨by decide, (C8_unknown_waits_ignored exUnknownDep).1, by decide⟩

/-- C9: whenever agent `B` of the definition appears in agent `A`'s
`reports_to` list, the built graph records `A` in `B`'s dependency set. -/
theorem C9_reports_inverse_edge (d : SwarmDefinition) (hnd : (agentOrder d).Nodup) :
    ∀ a ∈ d.agents, ∀ b ∈ d.agents, b.name ∈ a.reportsTo →
      a.name ∈ depsOf (buildDependencyGraph d) b.name := by
  intro a ha b hb hrep
  have hbase : a.name ∈ depsOf (baseGraph d) b.name := by
    unfold baseGraph
    apply addReports_adds d.agents _ ?nd a ha b.name hrep ?hk
    case nd =>
      rw [keysOf_addWaits, keysOf_initGraph]
      exact hnd
    case hk =>
      rw [keysOf_addWaits, keysOf_initGraph]
      exact List.mem_map.mpr ⟨b, hb, rfl⟩
  rw [buildDependencyGraph_eq]
  by_cases hc : ((d.mode == "pipeline" || d.mode == "sequential")
      && !hasExplicitDeps (baseGraph d)) = true
  · rw [if_pos hc]
    exact addChain_mono _ _ _ _ hbase
  · rw [if_neg hc]
    exact hbase

theorem C9_reports_inverse_edge_witness :
    (agentOrder exReportsXY).Nodup ∧
    buildDependencyGraph exReportsXY = [("X", []), ("Y", ["X"])] ∧
    "X" ∈ depsOf (buildDependencyGraph exReportsXY) "Y" ∧
    buildExecutionWaves (buildDependencyGraph exReportsXY) = some [["X"], ["Y"]] := by
  have hnd : (agentOrder exReportsXY).Nodup := by decide
  refine ⟨hnd, by decide, ?_, ?_⟩
  · exact C9_reports_inverse_edge exReportsXY hnd
      { name := "X", reportsTo := ["Y"] } (by decide)
      { name := "Y" } (by decide) (by decide)
  · rw [show buildDependencyGraph exReportsXY = [("X", []), ("Y", ["X"])] from by decide]
    exact waves_graphXY

/-- Unfolding of `updateAgent` when the agent is known. -/
theorem updateAgent_known {t : TrackerModel} {name : String} {a : AgentState}
    (h : getRecord t.state.agents name = some a) (u : AgentUpdate) :
    StateTracker.updateAgent t name u =
      { t with
        state := { t.state with agents := setRecord t.state.agents name (applyUpdate a u) }
        store := some { t.state with
          agents := setRecord t.state.agents name (applyUpdate a u) } } := by
  unfold StateTracker.updateAgent
  rw [h]

/-- Effect of the executor's update–log–update–log sequence on a known
agent. -/
theorem exec_chain (t : TrackerModel) (name : String) {a0 : AgentState}
    (h : getRecord t.state.agents name = some a0) (u1 u2 : AgentUpdate)
    (m1 m2 : String) :
    getRecord (StateTracker.appendLog (StateTracker.updateAgent
        (StateTracker.appendLog (StateTracker.updateAgent t name u1) name m1)
        name u2) name m2).state.agents name
      = some (applyUpdate (applyUpdate a0 u1) u2) ∧
    (StateTracker.appendLog (StateTracker.updateAgent
        (StateTracker.appendLog (StateTracker.updateAgent t name u1) name m1)
        name u2) name m2).logs = t.logs ++ [(name, m1), (name, m2)] := by
  have h1 := updateAgent_known h u1
  have hg1 : getRecord (StateTracker.appendLog (StateTracker.updateAgent t name u1)
      name m1).state.agents name = some (applyUpdate a0 u1) := by
    rw [h1]
    exact getRecord_set_self _ _ _
  have h2 := updateAgent_known hg1 u2
  constructor
  · show getRecord (StateTracker.updateAgent
      (StateTracker.appendLog (StateTracker.updateAgent t name u1) name m1)
      name u2).state.agents name = _
    rw [h2]
    exact getRecord_set_self _ _ _
  · show (StateTracker.updateAgent
      (StateTracker.appendLog (StateTracker.updateAgent t name u1) name m1)
      name u2).logs ++ [(name, m2)] = _
    rw [h2]
    show (StateTracker.updateAgent t name u1).logs ++ [(name, m1)] ++ [(name, m2)] = _
    rw [h1]
    show t.logs ++ [(name, m1)] ++ [(name, m2)] = t.logs ++ [(name, m1), (name, m2)]
    rw [List.append_assoc]
    rfl

/-- Tracker after `init` with `names` followed by `updateAgent` marking
`target` as `failed` with error `e` (the round-trip scenario of the spec). -/
def failTracker (runName : String) (names : List String) (target e : String)
    (tc : Nat) (mode : String) (n0 n1 : Nat) : TrackerModel :=
  StateTracker.updateAgent
    (StateTracker.init (StateTracker.new runName n0) names tc mode n1) target
    { status := some .failed, error := some (some e) }

/-- C6: after `init` with a list of agent names and an `updateAgent` that
marks one agent `failed` with an error string, `load()` returns exactly the
in-memory snapshot; in it the failed agent keeps status and error while every
other agent keeps its init value (`pending`, iteration 0, wave 0). -/
theorem C6_state_roundtrip (runName : String) (names : List String) (target : String)
    (htarget : target ∈ names) (e : String) (tc : Nat) (mode : String) (n0 n1 : Nat) :
    StateTracker.load (failTracker runName names target e tc mode n0 n1)
      = some (failTracker runName names target e tc mode n0 n1).state ∧
    getRecord (failTracker runName names target e tc mode n0 n1).state.agents target =
      some { name := target
             status := .failed
             iteration := 0
             wave := 0
             error := some e } ∧
    (∀ other ∈ names, other ≠ target →
      getRecord (failTracker runName names target e tc mode n0 n1).state.agents other =
        some { name := other, status := .pending, iteration := 0, wave := 0 }) := by
  have hinit : ∀ n, getRecord (StateTracker.init (StateTracker.new runName n0) names tc
      mode n1).state.agents n
      = if n ∈ names then some (StateTracker.pendingAgent n) else none := by
    intro n
    show getRecord (names.foldl
      (fun m n2 => setRecord m n2 (StateTracker.pendingAgent n2)) []) n = _
    rw [init_fold_getRecord]
    by_cases hn : n ∈ names
    · rw [if_pos hn, if_pos hn]
    · rw [if_neg hn, if_neg hn]
      rfl
  have ht1 : getRecord (StateTracker.init (StateTracker.new runName n0) names tc
      mode n1).state.agents target = some (StateTracker.pendingAgent target) := by
    rw [hinit, if_pos htarget]
  have ht2 : failTracker runName names target e tc mode n0 n1
      = { (StateTracker.init (StateTracker.new runName n0) names tc mode n1) with
      state := { (StateTracker.init (StateTracker.new runName n0) names tc mode
        n1).state with
        agents := setRecord (StateTracker.init (StateTracker.new runName n0) names tc
          mode n1).state.agents target (applyUpdate (StateTracker.pendingAgent target)
            { status := some .failed, error := some (some e) }) }
      store := some { (StateTracker.init (StateTracker.new runName n0) names tc mode
        n1).state with
        agents := setRecord (StateTracker.init (StateTracker.new runName n0) names tc
          mode n1).state.agents target (applyUpdate (StateTracker.pendingAgent target)
            { status := some .failed, error := some (some e) }) } } :=
    updateAgent_known ht1 _
  refine ⟨?_, ?_, ?_⟩
  · rw [ht2]
    rfl
  · rw [ht2]
    exact getRecord_set_self _ _ _
  · intro other hother hne
    rw [ht2]
    show getRecord (setRecord _ target _) other = _
    rw [getRecord_set_other _ hne, hinit, if_pos hother]
    rfl

theorem C6_state_roundtrip_witness :
    ("a2" ∈ ["a1", "a2", "a3"]) ∧
    (StateTracker.load (failTracker "run" ["a1", "a2", "a3"] "a2" "boom" 2 "pipeline" 5 7)
      = some (failTracker "run" ["a1", "a2", "a3"] "a2" "boom" 2 "pipeline" 5 7).state ∧
    getRecord (failTracker "run" ["a1", "a2", "a3"] "a2" "boom" 2 "pipeline"
        5 7).state.agents "a2" =
      some { name := "a2"
             status := .failed
             iteration := 0
             wave := 0
             error := some "boom" } ∧
    (∀ other ∈ ["a1", "a2", "a3"], other ≠ "a2" →
      getRecord (failTracker "run" ["a1", "a2", "a3"] "a2" "boom" 2 "pipeline"
          5 7).state.agents other =
        some { name := other, status := .pending, iteration := 0, wave := 0 })) :=
  ⟨by decide,
    C6_state_roundtrip "run" ["a1", "a2", "a3"] "a2" (by decide) "boom" 2 "pipeline" 5 7⟩

theorem C7_executor_classifies_and_reraises (agent : SwarmAgent) (iteration : Nat)
    (t : TrackerModel) (outcome : Except String SingleResult) (now1 now2 : Nat)
    {a0 : AgentState} (hknown : getRecord t.state.agents agent.name = some a0) :
    (∀ r, outcome = .ok r → r.exitCode = 0 →
      (executeSwarmAgent agent iteration t outcome now1 now2).1 = .ok r ∧
      getRecord (executeSwarmAgent agent iteration t outcome
          now1 now2).2.state.agents agent.name =
        some { a0 with
               status := .completed
               iteration := iteration
               startedAt := some now1
               completedAt := some now2
               error := r.error }) ∧
    (∀ r, outcome = .ok r → r.exitCode ≠ 0 →
      (executeSwarmAgent agent iteration t outcome now1 now2).1 = .ok r ∧
      getRecord (executeSwarmAgent agent iteration t outcome
          now1 now2).2.state.agents agent.name =
        some { a0 with
               status := .failed
               iteration := iteration
               startedAt := some now1
               completedAt := some now2
               error := r.error }) ∧
    (∀ e2, outcome = .error e2 →
      (executeSwarmAgent agent iteration t outcome now1 now2).1 = .error e2 ∧
      getRecord (executeSwarmAgent agent iteration t outcome
          now1 now2).2.state.agents agent.name =
        some { a0 with
               status := .failed
               iteration := iteration
               startedAt := some now1
               completedAt := some now2
               error := some e2 } ∧
      (executeSwarmAgent agent iteration t outcome now1 now2).2.logs =
        t.logs ++ [(agent.name, "Starting iteration " ++ toString iteration),
          (agent.name, "Iteration " ++ toString iteration ++ " error: " ++ e2)]) := by
  refine ⟨?_, ?_, ?_⟩
  · rintro r rfl hexit
    refine ⟨rfl, ?_⟩
    have hchain := (exec_chain t agent.name hknown
      { status := some .running, iteration := some iteration, startedAt := some now1 }
      { status := some (if r.exitCode = 0 then AgentStatus.completed
          else AgentStatus.failed)
        completedAt := some now2
        error := some r.error }
      ("Starting iteration " ++ toString iteration)
      ("Iteration " ++ toString iteration ++ " "
        ++ statusText (if r.exitCode = 0 then AgentStatus.completed
            else AgentStatus.failed)
        ++ (match r.error with
            | some e => if e = "" then "" else ": " ++ e
            | none => ""))).1
    refine Eq.trans hchain (congrArg some ?_)
    rw [if_pos hexit]
    rfl
  · rintro r rfl hexit
    refine ⟨rfl, ?_⟩
    have hchain := (exec_chain t agent.name hknown
      { status := some .running, iteration := some iteration, startedAt := some now1 }
      { status := some (if r.exitCode = 0 then AgentStatus.completed
          else AgentStatus.failed)
        completedAt := some now2
        error := some r.error }
      ("Starting iteration " ++ toString iteration)
      ("Iteration " ++ toString iteration ++ " "
        ++ statusText (if r.exitCode = 0 then AgentStatus.completed
            else AgentStatus.failed)
        ++ (match r.error with
            | some e => if e = "" then "" else ": " ++ e
            | none => ""))).1
    refine Eq.trans hchain (congrArg some ?_)
    rw [if_neg hexit]
    rfl
  · rintro e2 rfl
    have hchain := exec_chain t agent.name hknown
      { status := some .running, iteration := some iteration, startedAt := some now1 }
      { status := some AgentStatus.failed
        completedAt := some now2
        error := some (some e2) }
      ("Starting iteration " ++ toString iteration)
      ("Iteration " ++ toString iteration ++ " error: " ++ e2)
    exact ⟨rfl, hchain.1, hchain.2⟩

/-- A minimal tracker with a single known agent `W`, used by the executor
witness. -/
def exAgentW : SwarmAgent := { name := "W" }

def exTrackerW : TrackerModel :=
  { state :=
    { name := "s"
      status := .running
      mode := "m"
      iteration := 0
      targetCount := 1
      agents := [("W", StateTracker.pendingAgent "W")]
      startedAt := 0 } }

theorem C7_executor_classifies_and_reraises_witness :
    getRecord exTrackerW.state.agents "W" = some (StateTracker.pendingAgent "W") ∧
    ((executeSwarmAgent exAgentW 1 exTrackerW (.error "boom") 10 20).1
      = .error "boom") ∧
    getRecord (executeSwarmAgent exAgentW 1 exTrackerW
        (.error "boom") 10 20).2.state.agents "W"
      = some { name := "W"
               status := .failed
               iteration := 1
               wave := 0
               startedAt := some 10
               completedAt := some 20
               error := some "boom" } ∧
    (executeSwarmAgent exAgentW 1 exTrackerW (.error "boom") 10 20).2.logs
      = [("W", "Starting iteration 1"), ("W", "Iteration 1 error: boom")] ∧
    ((executeSwarmAgent exAgentW 1 exTrackerW
        (.ok { exitCode := 0 }) 10 20).1 = .ok { exitCode := 0 }) ∧
    getRecord (executeSwarmAgent exAgentW 1 exTrackerW
        (.ok { exitCode := 0 }) 10 20).2.state.agents "W"
      = some { name := "W"
               status := .completed
               iteration := 1
               wave := 0
               startedAt := some 10
               completedAt := some 20 } := by
  have hknown : getRecord exTrackerW.state.agents "W"
      = some (StateTracker.pendingAgent "W") := by decide
  have herr := (C7_executor_classifies_and_reraises exAgentW 1 exTrackerW
    (.error "boom") 10 20 hknown).2.2 "boom" rfl
  have hok := (C7_executor_classifies_and_reraises exAgentW 1 exTrackerW
    (.ok { exitCode := 0 }) 10 20 hknown).1 { exitCode := 0 } rfl (by decide)
  exact ⟨hknown, herr.1, herr.2.1, herr.2.2.trans (by decide), hok.1, hok.2⟩

end OMPSwarm
